import Mathlib

/-!
Verification of the content-addressable deduplication storage layer of the
Azin repository (src/storage/storage_utils.py together with its
Elasticsearch facade src/storage/es_utils.py).

The engine is embedded shallowly:

* A `FileDoc` is the Elasticsearch document built by `StorageFacade`
  (fields `file_name`, `file_hash`, `s3_object_name`, `metadata`).
  Python dict metadata values may be strings or `None` (JSON null), so a
  metadata mapping is an association list `List (String, Option String)`
  whose entries are present-with-value or present-with-null; a key can also
  be absent from the list entirely.
* The Elasticsearch index is a `List Doc` in insertion order, with the
  numeric `_id` made explicit.  `es_utils.search` calls
  `es_client.search(index, body, size=10)`; a term query returns all
  constant-score matches in index order truncated to the first `size`
  (default 10) hits, while `hits.total.value` reports the full match count.
* The S3 facade (`src/storage/s3_utils.py` is not part of the provided
  sources) is modelled from the spec, section 6: a bucket-scoped object
  store keyed by `bucket/name` whose objects are raw bytes or a link that
  structurally references another object's bytes.
* Every mutating backend call appends an `Op` to an operation trace so that
  frame/effect claims can be stated about exactly which writes happened.
* `uuid.uuid4().hex` and SHA-256 are nondeterministic/irreversible inputs:
  the generated hex string and the hash function are explicit parameters.
-/

/-- Metadata document value: a Python dict from string keys to either a
string or `None` (JSON null), kept in insertion order. -/
abbrev Meta := List (String × Option String)

/-- The Elasticsearch `_source` document indexed by `StorageFacade`
(`storage_utils.py` lines 76-81 and 105-110). -/
structure FileDoc where
  file_name : String
  file_hash : String
  s3_object_name : String
  metadata : Meta
deriving DecidableEq, Repr

/-- An indexed Elasticsearch document: the `_id` together with `_source`. -/
structure Doc where
  id : Nat
  source : FileDoc
deriving DecidableEq, Repr

/-- Modelled from the spec: an object held by the blob store is either raw
bytes or a link that structurally references another object key
(spec section 2, BlobStore; section 6 `createLink`). -/
inductive BlobObj where
  | bytes (content : String)
  | link (target : String)
deriving DecidableEq, Repr

/-- A mutating backend operation, recorded in the trace of a `Sys` state. -/
inductive Op where
  | indexWrite
  | docUpdate
  | docDelete
  | blobPut
  | linkCreate
  | blobDelete
deriving DecidableEq, Repr

/-- Combined backend state: the blob store (keyed by `bucket/name`), the
`files_index` Elasticsearch index in insertion order, the next fresh
document id, and the trace of mutating operations performed so far. -/
structure Sys where
  blobs : List (String × BlobObj)
  index : List Doc
  nextId : Nat
  ops : List Op
deriving DecidableEq, Repr

/-- Python `metadata.get(key)` on the metadata dict: `none` when the key is
absent, `some v` when present (where `v` itself may be null). -/
def metaGet (m : Meta) (k : String) : Option (Option String) :=
  match m.find? (fun kv => kv.1 == k) with
  | some kv => some kv.2
  | none => none

/-- Python `metadata[key] = value` on a dict: replace the (unique) existing
entry in place, else append the new entry at the end. -/
def metaSet : Meta → String → Option String → Meta
  | [], k, v => [(k, v)]
  | kv :: rest, k, v =>
    if kv.1 == k then (k, v) :: rest else kv :: metaSet rest k v

/-- Elasticsearch partial-document update semantics used by
`es_utils.update_document` (`body = {"doc": update_body}`): object fields
of the partial document are merged key-by-key into the stored object. -/
def mergeMeta (old new : Meta) : Meta :=
  new.foldl (fun acc kv => metaSet acc kv.1 kv.2) old

/-- Result of `es_utils.search`: the total number of matching documents and
the returned page of hits. -/
structure SearchResult where
  total : Nat
  hits : List Doc
deriving DecidableEq, Repr

/-- `es_utils.ElasticsearchFacade.search` with its default `size=10`: a
term query matches documents exactly, all hits score equally and come back
in index (insertion) order, truncated to the first 10; `total` is the full
match count. -/
def es_search (index : List Doc) (p : Doc → Bool) : SearchResult :=
  let ms := index.filter p
  { total := ms.length, hits := ms.take 10 }

/-- `es_utils.ElasticsearchFacade.index_document` with no explicit id:
appends a new document under a fresh id. -/
def es_index_document (st : Sys) (d : FileDoc) : Sys :=
  { st with
    index := st.index ++ [{ id := st.nextId, source := d }]
    nextId := st.nextId + 1
    ops := st.ops ++ [Op.indexWrite] }

/-- `es_utils.ElasticsearchFacade.get_document`: fetch by id, `none` when
the id is absent (the Python facade catches NotFoundError and returns
None). -/
def es_get_document (st : Sys) (docId : Nat) : Option Doc :=
  st.index.find? (fun d => d.id == docId)

/-- `es_utils.ElasticsearchFacade.update_document` for the update bodies
this engine sends, which all have the shape `{"metadata": m}`: the partial
metadata object is merged into the stored document's metadata. -/
def es_update_document (st : Sys) (docId : Nat) (newMeta : Meta) : Sys :=
  { st with
    index := st.index.map (fun d =>
      if d.id == docId then
        { d with source :=
            { d.source with metadata := mergeMeta d.source.metadata newMeta } }
      else d)
    ops := st.ops ++ [Op.docUpdate] }

/-- `es_utils.ElasticsearchFacade.delete_document`: remove the document
with the given id (a missing id is swallowed by the facade). -/
def es_delete_document (st : Sys) (docId : Nat) : Sys :=
  { st with
    index := st.index.filter (fun d => !(d.id == docId))
    ops := st.ops ++ [Op.docDelete] }

/-- Look up a blob-store object by its fully qualified key. -/
def lookupBlob (st : Sys) (key : String) : Option BlobObj :=
  match st.blobs.find? (fun kv => kv.1 == key) with
  | some kv => some kv.2
  | none => none

/-- Insert or overwrite a blob-store object, recording the given mutating
operation in the trace. -/
def setBlob (st : Sys) (key : String) (o : BlobObj) (op : Op) : Sys :=
  { st with
    blobs :=
      if (st.blobs.find? (fun kv => kv.1 == key)).isSome then
        st.blobs.map (fun kv => if kv.1 == key then (key, o) else kv)
      else st.blobs ++ [(key, o)]
    ops := st.ops ++ [op] }

/-- Modelled from the spec: BlobStore `exists(bucket,name)` — existence
check for `bucket/name` (spec section 6); `s3_utils.py` is absent from
the sources. -/
def s3_object_exists (st : Sys) (bucket name : String) : Bool :=
  (lookupBlob st (bucket ++ "/" ++ name)).isSome

/-- Modelled from the spec: BlobStore `put(bucket,name,bytes)->objectKey`
(spec section 6) — store raw bytes and return the object key. -/
def s3_upload_file (st : Sys) (bucket content name : String) : Sys × String :=
  (setBlob st (bucket ++ "/" ++ name) (BlobObj.bytes content) Op.blobPut,
   bucket ++ "/" ++ name)

/-- Modelled from the spec: BlobStore
`createLink(bucket,targetObjectKey,linkName)->objectKey` (spec section 6)
— create a named link object referencing another object's bytes without
copying them. -/
def s3_create_link (st : Sys) (bucket targetKey linkName : String) :
    Sys × String :=
  (setBlob st (bucket ++ "/" ++ linkName) (BlobObj.link targetKey)
     Op.linkCreate,
   bucket ++ "/" ++ linkName)

/-- Modelled from the spec: BlobStore `getBody(objectKey)->bytes` (spec
section 6) — read an object's bytes, following a link to the bytes it
references; fails (`none`) when the object is missing. -/
def s3_get_object_body (st : Sys) (key : String) : Option String :=
  match lookupBlob st key with
  | some (BlobObj.bytes c) => some c
  | some (BlobObj.link t) =>
    match lookupBlob st t with
    | some (BlobObj.bytes c) => some c
    | _ => none
  | none => none

/-- Modelled from the spec: BlobStore `putBody(objectKey,bytes)` (spec
section 6) — overwrite an object with raw bytes (used by promotion to make
a former link self-sufficient). -/
def s3_upload_object_body (st : Sys) (key content : String) : Sys :=
  setBlob st key (BlobObj.bytes content) Op.blobPut

/-- Modelled from the spec: BlobStore `delete(bucket,name)` (spec
section 6). -/
def s3_delete_file (st : Sys) (bucket name : String) : Sys :=
  { st with
    blobs := st.blobs.filter (fun kv => !(kv.1 == bucket ++ "/" ++ name))
    ops := st.ops ++ [Op.blobDelete] }

/-- Modelled from the spec: BlobStore `resolveLink(bucket,name)` (spec
section 6) — the object key a link object references, `none` for a
non-link. -/
def s3_resolve_link (st : Sys) (bucket name : String) : Option String :=
  match lookupBlob st (bucket ++ "/" ++ name) with
  | some (BlobObj.link t) => some t
  | _ => none

/-- Modelled from the spec: BlobStore `list(bucket,prefix?)` (spec
section 6) — the names (keys with the bucket qualifier stripped) of the
bucket's objects, optionally filtered to those starting with a prefix. -/
def s3_list_files (st : Sys) (bucket : String) (pre : Option String) :
    List String :=
  (st.blobs.map (fun kv => kv.1)).filterMap (fun key =>
    if (bucket ++ "/").toList.isPrefixOf key.toList then
      let name := String.mk (key.toList.drop (bucket ++ "/").toList.length)
      match pre with
      | some p =>
        if p.toList.isPrefixOf name.toList then some name else none
      | none => some name
    else none)

/-- Modelled from the spec: the `ContentLength` reported by a blob-store
head request — the byte size of the content the object serves. -/
def s3_head_size (st : Sys) (key : String) : Option Nat :=
  (s3_get_object_body st key).map String.length

/-- Python `file_path.rsplit('/', 1)[-1]`: the basename of a
slash-separated path. -/
def pathBasename (path : String) : String :=
  String.mk ((path.toList.reverse.takeWhile (fun c => !(c == '/'))).reverse)

/-- Python `object_name or basename` (`storage_utils.py` lines 59 and 90):
`None` and the empty string both fall through to the uploaded file's
basename. -/
def resolveName (objectName : Option String) (path : String) : String :=
  match objectName with
  | some s => if s = "" then pathBasename path else s
  | none => pathBasename path

/-- Python `object_name.rsplit('.', 1) if '.' in object_name else
(object_name, '')` on the character list: split base and extension on the
last dot. -/
def rsplitLastDot (l : List Char) : List Char × List Char :=
  if '.' ∈ l then
    ((((l.reverse).dropWhile (fun c => !(c == '.'))).drop 1).reverse,
     ((l.reverse).takeWhile (fun c => !(c == '.'))).reverse)
  else (l, [])

/-- `StorageFacade.generate_unique_name` (`storage_utils.py` lines
304-310): split base and extension on the last dot, append an underscore
and the generated `uuid4().hex` string `u` to the base, and reattach the
extension when one was present (Python truthiness: a non-empty extension
string). -/
def generate_unique_name (objectName u : String) : String :=
  let p := rsplitLastDot objectName.toList
  let baseName := String.mk p.1
  let extensionStr := String.mk p.2
  let uniqueName := baseName ++ "_" ++ u
  if extensionStr = "" then uniqueName else uniqueName ++ "." ++ extensionStr

/-- `StorageFacade.update_metadata_field` (`storage_utils.py` lines
312-330): read the current document, set the one key in its metadata, and
write the whole metadata mapping back through a partial-document update.
When the document is missing the Python facade returns `None` and the
subscript raises, so the call fails without mutating anything. -/
def update_metadata_field (st : Sys) (docId : Nat) (key : String)
    (value : Option String) : Sys × Except String Unit :=
  match es_get_document st docId with
  | none => (st, Except.error "document not found")
  | some doc =>
    let updated := metaSet doc.source.metadata key value
    (es_update_document st docId updated, Except.ok ())

/-- `StorageFacade.upload_file` (`storage_utils.py` lines 43-118).
`hashFn` stands for the SHA-256 digest of `calculate_file_hash` applied to
the uploaded bytes, and `u` is the `uuid4().hex` string used when a name
collision forces `generate_unique_name`.  The code branches on
`existing_files.hits.total.value > 0` and then reads `hits[0]`; since the
returned page is the match list truncated to 10, that is exactly a match
on the page being non-empty with head `hits[0]`.  Returns the new state
together with the pair the Python function returns. -/
def upload_file (hashFn : String → String) (u : String) (st : Sys)
    (filePath content bucketName : String) (objectName : Option String) :
    Sys × String × Option String :=
  let fileHash := hashFn content
  let existingFiles := es_search st.index (fun d => d.source.file_hash == fileHash)
  match existingFiles.hits with
  | existingFile :: _ =>
    let existingKey := existingFile.source.s3_object_name
    let linkName0 := resolveName objectName filePath
    let linkName :=
      if s3_object_exists st bucketName linkName0 then
        generate_unique_name linkName0 u
      else linkName0
    let created := s3_create_link st bucketName existingKey linkName
    let linkMetadata : Meta :=
      [("original-key", some existingKey),
       ("linked-file-hash", some fileHash),
       ("original-file-name", some (pathBasename filePath))]
    let st2 := es_index_document created.1
      { file_name := linkName, file_hash := fileHash,
        s3_object_name := created.2, metadata := linkMetadata }
    (st2, existingKey, some linkName)
  | [] =>
    let name0 := resolveName objectName filePath
    let name :=
      if s3_object_exists st bucketName name0 then
        generate_unique_name name0 u
      else name0
    let uploaded := s3_upload_file st bucketName content name
    let uploadMetadata : Meta :=
      [("original-key", none),
       ("original-file-name", some (pathBasename filePath))]
    let st2 := es_index_document uploaded.1
      { file_name := name, file_hash := fileHash,
        s3_object_name := uploaded.2, metadata := uploadMetadata }
    (st2, uploaded.2, none)

/-- `StorageFacade.download_file` (`storage_utils.py` lines 120-165).
`tempPath` stands for the fresh path chosen by `NamedTemporaryFile`.  The
record is looked up by `bucket/name`; the object is fetched into the
temporary file; if the blob store resolves the name to a link the
referenced object is fetched instead; finally the function returns the
pair `(temp_file_path, file_name)` built on line 162. -/
def download_file (st : Sys) (tempPath fileName bucketName : String) :
    Sys × Except String (String × String) :=
  let s3ObjectName := bucketName ++ "/" ++ fileName
  let result := es_search st.index (fun d => d.source.s3_object_name == s3ObjectName)
  match result.hits with
  | [] => (st, Except.error ("No file found with object name " ++ s3ObjectName))
  | _ :: _ =>
    match s3_get_object_body st (bucketName ++ "/" ++ fileName) with
    | none => (st, Except.error "failed to download object")
    | some _ =>
      match s3_resolve_link st bucketName fileName with
      | some originalKey =>
        let parts := originalKey.splitOn "/"
        let newBucket := parts.headD ""
        let newFile := parts.getLastD ""
        match s3_get_object_body st (newBucket ++ "/" ++ newFile) with
        | none => (st, Except.error "failed to download original object")
        | some _ => (st, Except.ok (tempPath, fileName))
      | none => (st, Except.ok (tempPath, fileName))

/-- `StorageFacade.promote_single_link_to_original` (`storage_utils.py`
lines 249-266): copy the canonical bytes onto the single dependent's
object key, then clear its `original-key` metadata. -/
def promote_single_link_to_original (st : Sys) (single : Doc)
    (content : String) : Sys × Except String Unit :=
  let st1 := s3_upload_object_body st single.source.s3_object_name content
  update_metadata_field st1 single.id "original-key" none

/-- `StorageFacade.promote_one_link_to_original` (`storage_utils.py` lines
222-247): promote the first returned dependent (copy the canonical bytes
to its object key and clear its `original-key`), then re-point every other
returned dependent's `original-key` at the promoted object key.  An
exception from any update aborts the loop. -/
def promote_one_link_to_original (st : Sys) (linkHits : List Doc)
    (content : String) : Sys × Except String Unit :=
  match linkHits with
  | [] => (st, Except.error "no link to promote")
  | first :: rest =>
    let newKey := first.source.s3_object_name
    let st1 := s3_upload_object_body st newKey content
    match update_metadata_field st1 first.id "original-key" none with
    | (st2, Except.error e) => (st2, Except.error e)
    | (st2, Except.ok _) =>
      rest.foldl (fun acc link =>
        match acc with
        | (s, Except.error e) => (s, Except.error e)
        | (s, Except.ok _) =>
          update_metadata_field s link.id "original-key" (some newKey))
        (st2, Except.ok ())

/-- `StorageFacade.handle_links_before_deletion` (`storage_utils.py` lines
200-220): search for records whose `metadata.original-key` equals the
object key about to be deleted (a term query on the keyword field, so
null/absent values never match), read the canonical bytes, and promote —
`promote_one_link_to_original` when more than one hit came back,
`promote_single_link_to_original` for exactly one.  The page of hits is
the match list truncated to the search size of 10, so the page is
non-empty exactly when `hits.total.value > 0`. -/
def handle_links_before_deletion (st : Sys) (s3ObjectName : String) :
    Sys × Except String Unit :=
  let linkResults := es_search st.index (fun d =>
    metaGet d.source.metadata "original-key" == some (some s3ObjectName))
  match linkResults.hits, s3_get_object_body st s3ObjectName with
  | [], _ => (st, Except.ok ())
  | _ :: _, none => (st, Except.error "failed to read original object body")
  | [single], some content =>
    promote_single_link_to_original st single content
  | first :: second :: rest, some content =>
    promote_one_link_to_original st (first :: second :: rest) content

/-- `StorageFacade.delete_file` (`storage_utils.py` lines 167-198): look
the record up by `bucket/name` (absent: raise before any mutation), handle
dependent links, delete the blob, delete the document, and return the
confirmation message. -/
def delete_file (st : Sys) (fileName bucketName : String) :
    Sys × Except String String :=
  let s3ObjectName := bucketName ++ "/" ++ fileName
  let result := es_search st.index (fun d => d.source.s3_object_name == s3ObjectName)
  match result.hits with
  | [] => (st, Except.error ("No file found with name " ++ fileName))
  | hit :: _ =>
    let s3Key := hit.source.s3_object_name
    let docId := hit.id
    match handle_links_before_deletion st s3Key with
    | (st1, Except.error e) => (st1, Except.error e)
    | (st1, Except.ok _) =>
      let st2 := s3_delete_file st1 bucketName fileName
      let st3 := es_delete_document st2 docId
      (st3, Except.ok ("File " ++ s3Key ++ " deleted."))

/-- One entry of `StorageFacade.list_files` (`storage_utils.py` lines
272-302); the display name is an `Option` because Python `dict.get` with a
default still returns `None` when the key is present with a null value. -/
structure ListEntry where
  file_name : Option String
  s3_object_name : String
  file_size : Nat
deriving DecidableEq, Repr

/-- `StorageFacade.list_files` (`storage_utils.py` lines 272-302):
enumerate the bucket's objects (optionally prefix-filtered), take each
object's size from the blob-store head request, and resolve the display
name from the index record's `original-file-name`, falling back to the raw
object name when no record (or no such metadata key) is found. -/
def list_files (st : Sys) (bucketName : String) (pre : Option String) :
    List ListEntry :=
  (s3_list_files st bucketName pre).map (fun s3File =>
    let fileSize := (s3_head_size st (bucketName ++ "/" ++ s3File)).getD 0
    let s3ObjectName := bucketName ++ "/" ++ s3File
    let result := es_search st.index (fun d => d.source.s3_object_name == s3ObjectName)
    let displayName :=
      match result.hits with
      | hit :: _ =>
        match metaGet hit.source.metadata "original-file-name" with
        | some v => v
        | none => some s3File
      | [] => some s3File
    { file_name := displayName, s3_object_name := s3File,
      file_size := fileSize })

/-- A FileRecord is canonical when its `metadata.original-key` is absent or
empty: missing, null, or the empty string (spec section 3). -/
def origKeyEmpty (d : FileDoc) : Bool :=
  match metaGet d.metadata "original-key" with
  | none => true
  | some none => true
  | some (some s) => s == ""

/-- First half of the spec section 3 invariant: for a given `file_hash`, at
most one FileRecord is canonical. -/
def UniqueCanonical (index : List Doc) : Prop :=
  ∀ d1 ∈ index, ∀ d2 ∈ index,
    d1.source.file_hash = d2.source.file_hash →
    origKeyEmpty d1.source = true → origKeyEmpty d2.source = true → d1 = d2

/-- Second half of the spec section 3 invariant: every non-canonical record
carries `original-key` equal to the object key of a canonical record with
the same `file_hash`. -/
def LinksPointAtCanonical (index : List Doc) : Prop :=
  ∀ d ∈ index, origKeyEmpty d.source = false →
    ∃ c ∈ index, c.source.file_hash = d.source.file_hash ∧
      origKeyEmpty c.source = true ∧
      metaGet d.source.metadata "original-key" =
        some (some c.source.s3_object_name)

/-- The single-canonical invariant of spec section 3. -/
def Invariant (index : List Doc) : Prop :=
  UniqueCanonical index ∧ LinksPointAtCanonical index

/-- Whether the first record carrying the given hash (in index order, hence
in search-result order) is canonical. -/
def firstHashHitCanonical (index : List Doc) (h : String) : Bool :=
  match index.find? (fun x => x.source.file_hash == h) with
  | some c => origKeyEmpty c.source
  | none => true

/-- Ordering discipline under which the dedup decision of `upload_file` is
sound: for every hash present in the index, the earliest record with that
hash is the canonical one, so the `hits[0]` the code trusts is canonical. -/
def CanonicalFirst (index : List Doc) : Prop :=
  ∀ d ∈ index, firstHashHitCanonical index d.source.file_hash = true

/-- Well-formedness: every record's object key is a non-empty string (real
keys always have the shape `bucket/name`). -/
def KeysNonempty (index : List Doc) : Prop :=
  ∀ d ∈ index, d.source.s3_object_name ≠ ""

/-- Well-formedness: Elasticsearch document ids are unique in the index. -/
def IdsNodup (index : List Doc) : Prop :=
  (index.map (fun d => d.id)).Nodup

/-- Well-formedness: each document's metadata dict has no repeated key
(always true of a Python dict). -/
def MetaKeysNodup (index : List Doc) : Prop :=
  ∀ d ∈ index, ((d.source.metadata.map (fun kv => kv.1)).Nodup : Prop)

/-- The canonical record used by the deletion scenarios: object `b/o`
holding bytes `X` under hash `h`. -/
def canonDocDel : Doc :=
  { id := 0,
    source :=
      { file_name := "o", file_hash := "h", s3_object_name := "b/o",
        metadata := [("original-key", none),
                     ("original-file-name", some "o")] } }

/-- The i-th dependent link record of the deletion scenarios: object
`b/l{i}` linking to `b/o`. -/
def linkDocDel (i : Nat) : Doc :=
  { id := i,
    source :=
      { file_name := "l" ++ toString i, file_hash := "h",
        s3_object_name := "b/l" ++ toString i,
        metadata := [("original-key", some "b/o"),
                     ("linked-file-hash", some "h"),
                     ("original-file-name", some "o")] } }

/-- A deletion scenario state: canonical `b/o` plus `n` dependent links
`b/l1 .. b/ln`. -/
def delState (n : Nat) : Sys :=
  { blobs := ("b/o", BlobObj.bytes "X") ::
      (List.range n).map (fun i => ("b/l" ++ toString (i + 1), BlobObj.link "b/o"))
    index := canonDocDel :: (List.range n).map (fun i => linkDocDel (i + 1))
    nextId := 20
    ops := [] }

/-- A dedup state whose index holds, in this order, a link record
(`b/l.txt`, pointing at `b/c.txt`) and then the canonical record
(`b/c.txt`) for hash `h`: it satisfies the single-canonical invariant, yet
the first search hit for hash `h` is the link. -/
def linkFirstState : Sys :=
  { blobs := [("b/c.txt", BlobObj.bytes "h"), ("b/l.txt", BlobObj.link "b/c.txt")]
    index :=
      [{ id := 1,
         source :=
           { file_name := "l.txt", file_hash := "h",
             s3_object_name := "b/l.txt",
             metadata := [("original-key", some "b/c.txt"),
                          ("linked-file-hash", some "h"),
                          ("original-file-name", some "l.txt")] } },
       { id := 0,
         source :=
           { file_name := "c.txt", file_hash := "h",
             s3_object_name := "b/c.txt",
             metadata := [("original-key", none),
                          ("original-file-name", some "c.txt")] } }]
    nextId := 2
    ops := [] }

/-- A one-record state whose record was stored under object key `b/x.txt`
while its `original-file-name` metadata records the originally uploaded
display name `y.txt`. -/
def renamedState : Sys :=
  { blobs := [("b/x.txt", BlobObj.bytes "X")]
    index :=
      [{ id := 0,
         source :=
           { file_name := "x.txt", file_hash := "h",
             s3_object_name := "b/x.txt",
             metadata := [("original-key", none),
                          ("original-file-name", some "y.txt")] } }]
    nextId := 1
    ops := [] }

/-- A well-ordered two-record dedup state: the canonical record for hash
`h` comes first, its single link second. -/
def canonicalFirstState : Sys :=
  { blobs := [("b/c.txt", BlobObj.bytes "h"), ("b/l.txt", BlobObj.link "b/c.txt")]
    index :=
      [{ id := 0,
         source :=
           { file_name := "c.txt", file_hash := "h",
             s3_object_name := "b/c.txt",
             metadata := [("original-key", none),
                          ("original-file-name", some "c.txt")] } },
       { id := 1,
         source :=
           { file_name := "l.txt", file_hash := "h",
             s3_object_name := "b/l.txt",
             metadata := [("original-key", some "b/c.txt"),
                          ("linked-file-hash", some "h"),
                          ("original-file-name", some "l.txt")] } }]
    nextId := 2
    ops := [] }

/-- The empty backend state. -/
def emptyState : Sys :=
  { blobs := [], index := [], nextId := 0, ops := [] }

deriving instance DecidableEq for Except

instance (index : List Doc) : Decidable (UniqueCanonical index) := by
  unfold UniqueCanonical; infer_instance

instance (index : List Doc) : Decidable (LinksPointAtCanonical index) := by
  unfold LinksPointAtCanonical; infer_instance

instance (index : List Doc) : Decidable (Invariant index) := by
  unfold Invariant; infer_instance

instance (index : List Doc) : Decidable (CanonicalFirst index) := by
  unfold CanonicalFirst; infer_instance

instance (index : List Doc) : Decidable (KeysNonempty index) := by
  unfold KeysNonempty; infer_instance

instance (index : List Doc) : Decidable (IdsNodup index) := by
  unfold IdsNodup; infer_instance

instance (index : List Doc) : Decidable (MetaKeysNodup index) := by
  unfold MetaKeysNodup; infer_instance

/-- The head of a filtered list is the first element satisfying the
predicate. -/
theorem filterHead_eq_find {α : Type} (p : α → Bool) (l : List α) :
    (l.filter p).head? = l.find? p := by
  induction l with
  | nil => rfl
  | cons a as ih => by_cases h : p a <;> simp [List.filter_cons, List.find?_cons, h, ih]

/-- Claim C3: deleting a name that no FileRecord matches raises the
not-found error and leaves the whole backend state (metadata index, blob
store, operation trace) exactly as it was. -/
theorem delete_missing_raises_and_preserves_state
    (st : Sys) (fileName bucketName : String)
    (h : ∀ d ∈ st.index, d.source.s3_object_name ≠ bucketName ++ "/" ++ fileName) :
    delete_file st fileName bucketName =
      (st, Except.error ("No file found with name " ++ fileName)) := by
  have hf : st.index.filter
      (fun d => d.source.s3_object_name == bucketName ++ "/" ++ fileName) = [] := by
    apply List.filter_eq_nil_iff.mpr
    intro d hd
    simpa using h d hd
  simp [delete_file, es_search, hf]

/-- Witness for C3 at a concrete state. -/
theorem delete_missing_raises_and_preserves_state_witness :
    delete_file emptyState "f" "b" =
      (emptyState, Except.error ("No file found with name " ++ "f")) :=
  delete_missing_raises_and_preserves_state emptyState "f" "b"
    (by intro d hd; simp [emptyState] at hd)

/-- Counterexample to claim C5: on `renamedState` the record for
`b/x.txt` carries `original-file-name = "y.txt"`, yet a successful
`download_file` returns the requested name `x.txt`, not the stored
display name. -/
theorem download_returns_requested_name_not_metadata :
    (download_file renamedState "/tmp/t" "x.txt" "b").2 =
      Except.ok ("/tmp/t", "x.txt") ∧
    (∀ d ∈ renamedState.index,
      metaGet d.source.metadata "original-file-name" = some (some "y.txt")) ∧
    ("x.txt" : String) ≠ "y.txt" := by
  refine ⟨by decide, by decide, by decide⟩

/-- Amended claim C5: a successful `download_file` returns the temporary
file path and the *requested* file name; the `original-file-name`
metadata is never consulted by this function (its callers look it up
separately). -/
theorem download_display_name_is_requested_name
    (st : Sys) (tempPath fileName bucketName : String) (p : String × String)
    (h : (download_file st tempPath fileName bucketName).2 = Except.ok p) :
    p = (tempPath, fileName) := by
  unfold download_file at h
  dsimp only at h
  split at h
  all_goals try split at h
  all_goals try split at h
  all_goals try split at h
  all_goals simp at h
  all_goals exact h.symm

/-- Witness for the amended C5 at a concrete state. -/
theorem download_display_name_is_requested_name_witness :
    (download_file renamedState "/tmp/t" "x.txt" "b").2 =
      Except.ok ("/tmp/t", "x.txt") ∧
    ("/tmp/t", "x.txt") = ("/tmp/t", "x.txt") :=
  ⟨by decide,
   download_display_name_is_requested_name renamedState "/tmp/t" "x.txt" "b"
     ("/tmp/t", "x.txt") (by decide)⟩

/-- Claim C6: every upload performs exactly one metadata-index document
write and exactly one blob-store mutation — a link creation when a hash
match exists (second return component present), otherwise a raw byte
upload — and nothing else. -/
theorem upload_single_index_write_single_blob_write
    (hashFn : String → String) (u : String) (st : Sys)
    (filePath content bucketName : String) (objectName : Option String) :
    ((upload_file hashFn u st filePath content bucketName objectName).1.ops =
        st.ops ++ [Op.linkCreate, Op.indexWrite] ∧
      ((upload_file hashFn u st filePath content bucketName objectName).2.2).isSome = true) ∨
    ((upload_file hashFn u st filePath content bucketName objectName).1.ops =
        st.ops ++ [Op.blobPut, Op.indexWrite] ∧
      (upload_file hashFn u st filePath content bucketName objectName).2.2 = none) := by
  rcases hh : (es_search st.index fun d => d.source.file_hash == hashFn content).hits with _ | ⟨a, t⟩
  · right
    simp [upload_file, hh, es_index_document, s3_upload_file, setBlob]
  · left
    simp [upload_file, hh, es_index_document, s3_create_link, setBlob]

/-- Characters satisfying a predicate are taken unchanged up to the first
failing character. -/
theorem takeWhile_all_append (p : Char → Bool) (xs : List Char) (y : Char)
    (ys : List Char) (hxs : ∀ x ∈ xs, p x = true) (hy : p y = false) :
    (xs ++ y :: ys).takeWhile p = xs := by
  induction xs with
  | nil => simp [List.takeWhile_cons, hy]
  | cons a as ih =>
    have ha : p a = true := hxs a (by simp)
    simp only [List.cons_append, List.takeWhile_cons, ha, if_true]
    rw [ih (fun x hx => hxs x (by simp [hx]))]

/-- Characters satisfying a predicate are dropped up to the first failing
character. -/
theorem dropWhile_all_append (p : Char → Bool) (xs : List Char) (y : Char)
    (ys : List Char) (hxs : ∀ x ∈ xs, p x = true) (hy : p y = false) :
    (xs ++ y :: ys).dropWhile p = y :: ys := by
  induction xs with
  | nil => simp [List.dropWhile_cons, hy]
  | cons a as ih =>
    have ha : p a = true := hxs a (by simp)
    simp only [List.cons_append, List.dropWhile_cons, ha, if_true]
    exact ih (fun x hx => hxs x (by simp [hx]))

/-- On a character list of the shape `base ++ dot ++ extension` with a
dot-free extension, `rsplitLastDot` recovers the base and the
extension. -/
theorem rsplitLastDot_append (B E : List Char) (hE : ∀ c ∈ E, ¬ c = '.') :
    rsplitLastDot (B ++ '.' :: E) = (B, E) := by
  have hmem : '.' ∈ B ++ '.' :: E := by simp
  have hrev : (B ++ '.' :: E).reverse = E.reverse ++ '.' :: B.reverse := by
    simp
  have hall : ∀ x ∈ E.reverse, (!(x == '.')) = true := by
    intro x hx
    simpa using hE x (List.mem_reverse.mp hx)
  have hdot : (!(('.' : Char) == '.')) = false := by simp
  unfold rsplitLastDot
  rw [if_pos hmem, hrev, takeWhile_all_append _ _ _ _ hall hdot,
    dropWhile_all_append _ _ _ _ hall hdot]
  simp

/-- Claim C8: `generate_unique_name` splits base and extension on the last
dot, appends the generated suffix to the base, and reattaches a non-empty
extension; in particular on input `a.txt` it never returns `a.txt` and its
result always ends in `.txt`. -/
theorem generate_unique_name_spec :
    (∀ (u base e : String), e ≠ "" → (∀ c ∈ e.toList, ¬ c = '.') →
      generate_unique_name (base ++ "." ++ e) u = base ++ "_" ++ u ++ "." ++ e) ∧
    (∀ u : String, generate_unique_name "a.txt" u ≠ "a.txt") ∧
    (∀ u : String, ∃ s, generate_unique_name "a.txt" u = s ++ ".txt") := by
  have hsplit : ∀ (u base e : String), e ≠ "" → (∀ c ∈ e.toList, ¬ c = '.') →
      generate_unique_name (base ++ "." ++ e) u = base ++ "_" ++ u ++ "." ++ e := by
    intro u base e he hdotfree
    have hl : (base ++ "." ++ e).toList = base.toList ++ '.' :: e.toList := by
      simp
    unfold generate_unique_name
    rw [hl, rsplitLastDot_append base.toList e.toList hdotfree]
    have hbase : String.mk base.toList = base := rfl
    have hext : String.mk e.toList = e := rfl
    dsimp only
    rw [hbase, hext, if_neg he]
  have htxt : ∀ u : String,
      generate_unique_name "a.txt" u = "a" ++ "_" ++ u ++ "." ++ "txt" := by
    intro u
    have h1 : ("a" : String) ++ "." ++ "txt" = "a.txt" := rfl
    have := hsplit u "a" "txt" (by decide) (by decide)
    rw [h1] at this
    exact this
  refine ⟨hsplit, ?_, ?_⟩
  · intro u hequ
    rw [htxt u] at hequ
    have hlen := congrArg String.length hequ
    simp [String.length_append] at hlen
    have h2 : ("a_" : String).length = 2 := rfl
    have h3 : ("." : String).length = 1 := rfl
    have h4 : ("txt" : String).length = 3 := rfl
    have h5 : ("a.txt" : String).length = 5 := rfl
    rw [h2, h3, h4, h5] at hlen
    omega
  · intro u
    refine ⟨"a" ++ "_" ++ u, ?_⟩
    rw [htxt u, String.append_assoc]
    rfl

/-- Witness for C8 at concrete inputs. -/
theorem generate_unique_name_spec_witness :
    generate_unique_name ("a" ++ "." ++ "txt") "u0" = "a" ++ "_" ++ "u0" ++ "." ++ "txt" ∧
    generate_unique_name "a.txt" "u0" ≠ "a.txt" :=
  ⟨generate_unique_name_spec.1 "u0" "a" "txt" (by decide) (by decide),
   generate_unique_name_spec.2.1 "u0"⟩

/-- The head of the search page is the first matching document. -/
theorem es_search_hits_head (index : List Doc) (p : Doc → Bool) :
    (es_search index p).hits.head? = index.find? p := by
  unfold es_search
  dsimp only
  rw [← filterHead_eq_find]
  cases index.filter p <;> rfl

/-- The search page is empty exactly when no document matches. -/
theorem es_search_hits_nil (index : List Doc) (p : Doc → Bool) :
    (es_search index p).hits = [] ↔ index.find? p = none := by
  constructor
  · intro h
    rw [← es_search_hits_head, h]
    rfl
  · intro h
    have hf : index.filter p = [] := by
      apply List.filter_eq_nil_iff.mpr
      intro a ha
      exact List.find?_eq_none.mp h a ha
    unfold es_search
    simp [hf]

/-- `resolveName` never yields the empty string when the uploaded path has
a non-empty basename. -/
theorem resolveName_ne_empty (objectName : Option String) (path : String)
    (h : pathBasename path ≠ "") : resolveName objectName path ≠ "" := by
  unfold resolveName
  match objectName with
  | none => exact h
  | some s =>
    by_cases hs : s = ""
    · simp [hs, h]
    · simp [hs]

/-- `generate_unique_name` never yields the empty string: the underscore
separator alone makes the result non-empty. -/
theorem generate_unique_name_ne_empty (n u : String) :
    generate_unique_name n u ≠ "" := by
  unfold generate_unique_name
  dsimp only
  intro hc
  split at hc
  · have hlen := congrArg String.length hc
    simp [String.length_append] at hlen
    have h1 : ("_" : String).length = 1 := rfl
    rw [h1] at hlen
    omega
  · have hlen := congrArg String.length hc
    simp [String.length_append] at hlen
    have h1 : ("_" : String).length = 1 := rfl
    have h2 : ("." : String).length = 1 := rfl
    rw [h1, h2] at hlen
    omega

/-- Replacing the entry for a key in place leaves that key bound to the
new value. -/
theorem find?_map_set (l : List (String × BlobObj)) (key : String)
    (o : BlobObj) (h : (l.find? (fun kv => kv.1 == key)).isSome = true) :
    (l.map (fun kv => if kv.1 == key then (key, o) else kv)).find?
      (fun kv => kv.1 == key) = some (key, o) := by
  induction l with
  | nil => simp [List.find?] at h
  | cons kv rest ih =>
    by_cases hk : kv.1 = key
    · simp [List.find?_cons, hk]
    · have hk2 : (kv.1 == key) = false := by simp [hk]
      rw [List.find?_cons_of_neg _ (by simp [hk2])] at h
      simp only [List.map_cons, hk2, Bool.false_eq_true, if_false]
      rw [List.find?_cons_of_neg _ (by simp [hk2])]
      exact ih h

/-- The blob list produced by `setBlob` binds the written key to the
written object. -/
theorem find?_setList (l : List (String × BlobObj)) (key : String)
    (o : BlobObj) :
    ((if (l.find? (fun kv => kv.1 == key)).isSome = true then
        l.map (fun kv => if kv.1 == key then (key, o) else kv)
      else l ++ [(key, o)]).find? (fun kv => kv.1 == key)) = some (key, o) := by
  by_cases h : (l.find? (fun kv => kv.1 == key)).isSome = true
  · rw [if_pos h]
    exact find?_map_set l key o h
  · rw [if_neg h]
    have hn : l.find? (fun kv => kv.1 == key) = none := by
      cases hf : l.find? (fun kv => kv.1 == key) with
      | none => rfl
      | some kv => rw [hf] at h; simp at h
    rw [List.find?_append, hn]
    simp [List.find?_cons]

/-- A freshly written blob is found under its key. -/
theorem lookupBlob_setBlob_self (st : Sys) (key : String) (o : BlobObj)
    (op : Op) : lookupBlob (setBlob st key o op) key = some o := by
  unfold lookupBlob setBlob
  dsimp only
  rw [find?_setList st.blobs key o]

/-- Document indexing leaves the blob store untouched. -/
theorem lookupBlob_es_index_document (st : Sys) (d : FileDoc) (key : String) :
    lookupBlob (es_index_document st d) key = lookupBlob st key := rfl

/-- Claim C4: when no record shares the computed digest, upload returns
the new object key and `None`; when a match exists, it returns the first
match's object key together with the non-empty name under which the link
object was actually created. -/
theorem upload_return_pair_spec
    (hashFn : String → String) (u : String) (st : Sys)
    (filePath content bucketName : String) (objectName : Option String)
    (hbase : pathBasename filePath ≠ "") :
    (∀ m, st.index.find? (fun d => d.source.file_hash == hashFn content) = some m →
      ∃ l, (upload_file hashFn u st filePath content bucketName objectName).2 =
          (m.source.s3_object_name, some l) ∧ l ≠ "" ∧
        lookupBlob (upload_file hashFn u st filePath content bucketName objectName).1
            (bucketName ++ "/" ++ l) =
          some (BlobObj.link m.source.s3_object_name)) ∧
    (st.index.find? (fun d => d.source.file_hash == hashFn content) = none →
      (upload_file hashFn u st filePath content bucketName objectName).2.2 = none) := by
  constructor
  · intro m hm
    rcases hh : (es_search st.index fun d => d.source.file_hash == hashFn content).hits
      with _ | ⟨a, t⟩
    · rw [(es_search_hits_nil _ _).mp hh] at hm
      exact absurd hm (by simp)
    · have ha : a = m := by
        have := es_search_hits_head st.index
          (fun d => d.source.file_hash == hashFn content)
        rw [hh, hm] at this
        simpa using this
      subst ha
      refine ⟨if s3_object_exists st bucketName (resolveName objectName filePath) then
          generate_unique_name (resolveName objectName filePath) u
        else resolveName objectName filePath, ?_, ?_, ?_⟩
      · simp [upload_file, hh]
      · split
        · exact generate_unique_name_ne_empty _ u
        · exact resolveName_ne_empty objectName filePath hbase
      · simp only [upload_file, hh]
        rw [lookupBlob_es_index_document]
        exact lookupBlob_setBlob_self st _ _ _
  · intro hm
    have hh : (es_search st.index fun d => d.source.file_hash == hashFn content).hits = [] :=
      (es_search_hits_nil _ _).mpr hm
    simp [upload_file, hh]

/-- Witness for C4 at a concrete dedup state. -/
theorem upload_return_pair_spec_witness :
    ∃ l, (upload_file id "U" canonicalFirstState "/tmp/n.txt" "h" "b" none).2 =
        ("b/c.txt", some l) ∧ l ≠ "" ∧
      lookupBlob (upload_file id "U" canonicalFirstState "/tmp/n.txt" "h" "b" none).1
          ("b" ++ "/" ++ l) = some (BlobObj.link "b/c.txt") := by
  obtain ⟨l, h1, h2, h3⟩ :=
    (upload_return_pair_spec id "U" canonicalFirstState "/tmp/n.txt" "h" "b" none
      (by decide)).1
    { id := 0,
      source :=
        { file_name := "c.txt", file_hash := "h", s3_object_name := "b/c.txt",
          metadata := [("original-key", none),
                       ("original-file-name", some "c.txt")] } }
    (by decide)
  exact ⟨l, h1, h2, h3⟩

/-- Claim C10: the record indexed on the dedup path carries a
`linked-file-hash` metadata key equal to its own `file_hash` (the digest
of the uploaded bytes), while the record indexed on the new-canonical path
carries no such key. -/
theorem upload_linked_file_hash_metadata
    (hashFn : String → String) (u : String) (st : Sys)
    (filePath content bucketName : String) (objectName : Option String) :
    ∃ nd, (upload_file hashFn u st filePath content bucketName
        objectName).1.index.getLast? = some nd ∧
      nd.source.file_hash = hashFn content ∧
      ((st.index.find? (fun d => d.source.file_hash == hashFn content)).isSome = true →
        metaGet nd.source.metadata "linked-file-hash" =
          some (some nd.source.file_hash)) ∧
      (st.index.find? (fun d => d.source.file_hash == hashFn content) = none →
        metaGet nd.source.metadata "linked-file-hash" = none) := by
  rcases hh : (es_search st.index fun d => d.source.file_hash == hashFn content).hits
    with _ | ⟨a, t⟩
  · have hm : st.index.find? (fun d => d.source.file_hash == hashFn content) = none :=
      (es_search_hits_nil _ _).mp hh
    refine ⟨⟨st.nextId,
      { file_name := if s3_object_exists st bucketName (resolveName objectName filePath) = true
            then generate_unique_name (resolveName objectName filePath) u
            else resolveName objectName filePath,
        file_hash := hashFn content,
        s3_object_name := bucketName ++ "/" ++
          (if s3_object_exists st bucketName (resolveName objectName filePath) = true
            then generate_unique_name (resolveName objectName filePath) u
            else resolveName objectName filePath),
        metadata := [("original-key", none),
                     ("original-file-name", some (pathBasename filePath))] }⟩,
      ?_, rfl, ?_, fun _ => rfl⟩
    · simp only [upload_file, hh, es_index_document]
      exact List.getLast?_concat _
    · intro hs
      rw [hm] at hs
      simp at hs
  · have hfind : st.index.find? (fun d => d.source.file_hash == hashFn content) = some a := by
      have := es_search_hits_head st.index (fun d => d.source.file_hash == hashFn content)
      rw [hh] at this
      exact this.symm
    refine ⟨⟨st.nextId,
      { file_name := if s3_object_exists st bucketName (resolveName objectName filePath) = true
            then generate_unique_name (resolveName objectName filePath) u
            else resolveName objectName filePath,
        file_hash := hashFn content,
        s3_object_name := bucketName ++ "/" ++
          (if s3_object_exists st bucketName (resolveName objectName filePath) = true
            then generate_unique_name (resolveName objectName filePath) u
            else resolveName objectName filePath),
        metadata := [("original-key", some a.source.s3_object_name),
                     ("linked-file-hash", some (hashFn content)),
                     ("original-file-name", some (pathBasename filePath))] }⟩,
      ?_, rfl, fun _ => rfl, ?_⟩
    · simp only [upload_file, hh, es_index_document]
      exact List.getLast?_concat _
    · intro hm
      rw [hfind] at hm
      simp at hm

/-- Witness for C10 at a concrete dedup state. -/
theorem upload_linked_file_hash_metadata_witness :
    ∃ nd, (upload_file id "U" canonicalFirstState "/tmp/n.txt" "h" "b"
        none).1.index.getLast? = some nd ∧
      metaGet nd.source.metadata "linked-file-hash" =
        some (some nd.source.file_hash) := by
  obtain ⟨nd, h1, h2, h3, h4⟩ :=
    upload_linked_file_hash_metadata id "U" canonicalFirstState "/tmp/n.txt" "h"
      "b" none
  exact ⟨nd, h1, h3 (by decide)⟩

/-- Setting a key makes `metaGet` return the new value. -/
theorem metaGet_metaSet_self (m : Meta) (k : String) (v : Option String) :
    metaGet (metaSet m k v) k = some v := by
  induction m with
  | nil => simp [metaSet, metaGet, List.find?_cons]
  | cons kv rest ih =>
    by_cases h : kv.1 == k
    · simp [metaSet, h, metaGet, List.find?_cons]
    · simp only [metaSet, h, Bool.false_eq_true, if_false]
      simpa [metaGet, List.find?_cons, h] using ih

/-- Setting a key leaves every other key unchanged. -/
theorem metaGet_metaSet_ne (m : Meta) (k k2 : String) (v : Option String)
    (h : ¬ k2 = k) : metaGet (metaSet m k v) k2 = metaGet m k2 := by
  induction m with
  | nil =>
    simp [metaSet, metaGet, List.find?_cons, show (k == k2) = false by
      simpa using fun hc => h hc.symm]
  | cons kv rest ih =>
    by_cases hk : kv.1 == k
    · have hk1 : kv.1 = k := by simpa using hk
      simp [metaSet, hk, metaGet, List.find?_cons,
        show (k == k2) = false by simpa using fun hc => h hc.symm,
        show (kv.1 == k2) = false by simp [hk1]; intro hc; exact h hc.symm]
    · simp only [metaSet, hk, Bool.false_eq_true, if_false]
      by_cases hk2 : kv.1 == k2
      · simp [metaGet, List.find?_cons, hk2]
      · simp only [metaGet, List.find?_cons] at ih ⊢
        simp only [hk2]
        exact ih

/-- Setting a key to the value it already has is the identity. -/
theorem metaSet_eq_of_get (m : Meta) (k : String) (v : Option String)
    (h : metaGet m k = some v) : metaSet m k v = m := by
  induction m with
  | nil => simp [metaGet, List.find?] at h
  | cons kv rest ih =>
    by_cases hk : kv.1 == k
    · have hk1 : kv.1 = k := by simpa using hk
      have hv : kv.2 = v := by
        simp [metaGet, List.find?_cons, hk] at h
        exact h
      simp only [metaSet, hk, if_true]
      rw [← hk1, ← hv]
    · simp only [metaSet, hk, Bool.false_eq_true, if_false]
      have h2 : metaGet rest k = some v := by
        simpa [metaGet, List.find?_cons, hk] using h
      rw [ih h2]

/-- Members of `metaSet m k v` come from `m` or are the new binding. -/
theorem mem_metaSet (m : Meta) (k : String) (v : Option String)
    (kv2 : String × Option String) (h : kv2 ∈ metaSet m k v) :
    kv2 ∈ m ∨ kv2 = (k, v) := by
  induction m with
  | nil =>
    simp [metaSet] at h
    exact Or.inr h
  | cons kv rest ih =>
    by_cases hk : kv.1 == k
    · simp only [metaSet, hk, if_true] at h
      rcases List.mem_cons.mp h with h1 | h1
      · exact Or.inr h1
      · exact Or.inl (List.mem_cons.mpr (Or.inr h1))
    · simp only [metaSet, hk, Bool.false_eq_true, if_false] at h
      rcases List.mem_cons.mp h with h1 | h1
      · exact Or.inl (List.mem_cons.mpr (Or.inl h1))
      · rcases ih h1 with h2 | h2
        · exact Or.inl (List.mem_cons.mpr (Or.inr h2))
        · exact Or.inr h2

/-- With unique keys, a member's key looks up to its own value. -/
theorem metaGet_of_mem_nodup (m : Meta)
    (hnd : (m.map (fun kv => kv.1)).Nodup) (kv : String × Option String)
    (h : kv ∈ m) : metaGet m kv.1 = some kv.2 := by
  induction m with
  | nil => simp at h
  | cons kv0 rest ih =>
    rcases List.mem_cons.mp h with h1 | h1
    · subst h1
      simp [metaGet, List.find?_cons]
    · have hne : ¬ kv0.1 == kv.1 := by
        simp only [List.map_cons, List.nodup_cons] at hnd
        intro hc
        exact hnd.1 (by
          have : kv0.1 = kv.1 := by simpa using hc
          rw [this]
          exact List.mem_map.mpr ⟨kv, h1, rfl⟩)
      have := ih (by simpa using (List.nodup_cons.mp (by simpa using hnd)).2) h1
      simpa [metaGet, List.find?_cons, hne] using this

/-- Folding `metaSet` over bindings the accumulator already has is the
identity. -/
theorem foldl_metaSet_id (ns : Meta) (M : Meta)
    (h : ∀ kv ∈ ns, metaGet M kv.1 = some kv.2) :
    ns.foldl (fun acc kv => metaSet acc kv.1 kv.2) M = M := by
  induction ns with
  | nil => rfl
  | cons kv rest ih =>
    have h1 : metaSet M kv.1 kv.2 = M :=
      metaSet_eq_of_get M kv.1 kv.2 (h kv (by simp))
    simp only [List.foldl_cons, h1]
    exact ih (fun kv2 hm => h kv2 (by simp [hm]))

/-- Folding `metaSet` with keys different from the head key keeps the head
in place. -/
theorem foldl_metaSet_cons (ns : Meta) (a : String) (w : Option String)
    (rest : Meta) (h : ∀ kv ∈ ns, ¬ kv.1 = a) :
    ns.foldl (fun acc kv => metaSet acc kv.1 kv.2) ((a, w) :: rest) =
      (a, w) :: ns.foldl (fun acc kv => metaSet acc kv.1 kv.2) rest := by
  induction ns generalizing rest with
  | nil => rfl
  | cons kv ns2 ih =>
    have hne : ¬ (a == kv.1) := by
      simpa using fun hc => (h kv (by simp)) hc.symm
    simp only [List.foldl_cons, metaSet, hne, Bool.false_eq_true, if_false]
    exact ih _ (fun kv2 hm => h kv2 (by simp [hm]))

/-- For a metadata dict with unique keys, the Elasticsearch object merge
of `metaSet m k v` into `m` is exactly `metaSet m k v`: writing back the
full updated mapping replaces just the one key. -/
theorem mergeMeta_metaSet (old : Meta) (k : String) (v : Option String)
    (h : (old.map (fun kv => kv.1)).Nodup) :
    mergeMeta old (metaSet old k v) = metaSet old k v := by
  induction old with
  | nil => rfl
  | cons kv rest ih =>
    have h2 : (kv.1 :: rest.map (fun kv => kv.1)).Nodup := by simpa using h
    have hnd := List.nodup_cons.mp h2
    by_cases hk : kv.1 == k
    · have hk1 : kv.1 = k := by simpa using hk
      unfold mergeMeta
      simp only [metaSet, hk, if_true, List.foldl_cons]
      apply foldl_metaSet_id
      intro kv2 hm
      have hne : ¬ kv2.1 = k := by
        intro hc
        apply hnd.1
        rw [hk1, ← hc]
        exact List.mem_map.mpr ⟨kv2, hm, rfl⟩
      have hstep : metaGet ((k, v) :: rest) kv2.1 = metaGet rest kv2.1 := by
        simp [metaGet, List.find?_cons, show ¬ (k == kv2.1) by
          simpa using fun hc => hne hc.symm]
      rw [hstep]
      exact metaGet_of_mem_nodup rest hnd.2 kv2 hm
    · unfold mergeMeta
      simp only [metaSet, hk, Bool.false_eq_true, if_false, List.foldl_cons,
        beq_self_eq_true, if_true]
      have hcond : ∀ kv2 ∈ metaSet rest k v, ¬ kv2.1 = kv.1 := by
        intro kv2 hm hc
        rcases mem_metaSet rest k v kv2 hm with h1 | h1
        · exact hnd.1 (by rw [← hc]; exact List.mem_map.mpr ⟨kv2, h1, rfl⟩)
        · apply hk
          rw [h1] at hc
          simpa using hc.symm
      rw [foldl_metaSet_cons (metaSet rest k v) kv.1 kv.2 rest hcond]
      unfold mergeMeta at ih
      rw [ih hnd.2]

/-- Find-by-id commutes with an id-preserving conditional map. -/
theorem find?_map_update (l : List Doc) (docId : Nat) (g : Doc → Doc)
    (hg : ∀ d, (g d).id = d.id) :
    (l.map (fun d => if d.id == docId then g d else d)).find?
        (fun d => d.id == docId) =
      (l.find? (fun d => d.id == docId)).map g := by
  induction l with
  | nil => rfl
  | cons d rest ih =>
    by_cases h : d.id == docId
    · have hp : d.id = docId := by simpa using h
      simp [List.find?_cons, hp, hg d]
    · have hb : (d.id == docId) = false := by simpa using h
      simp only [List.map_cons, hb, Bool.false_eq_true, if_false]
      rw [List.find?_cons_of_neg _ (by simp [hb]),
        List.find?_cons_of_neg _ (by simp [hb])]
      exact ih

/-- Fetching the updated document after `es_update_document` returns the
stored document with the partial metadata merged in. -/
theorem es_get_document_update (st : Sys) (docId : Nat) (newMeta : Meta) :
    es_get_document (es_update_document st docId newMeta) docId =
      (es_get_document st docId).map (fun d =>
        { d with source :=
            { d.source with metadata := mergeMeta d.source.metadata newMeta } }) := by
  unfold es_get_document es_update_document
  exact find?_map_update st.index docId _ (fun d => rfl)

/-- Claim C9: `update_metadata_field` reads the current metadata and
writes it back with only the given key changed: afterwards the document's
metadata is the old mapping with that key set, every other metadata key
keeps its previous value, and the non-metadata fields are untouched. -/
theorem update_metadata_field_spec
    (st : Sys) (docId : Nat) (key : String) (value : Option String)
    (doc : Doc) (hdoc : es_get_document st docId = some doc)
    (hkeys : (doc.source.metadata.map (fun kv => kv.1)).Nodup) :
    ∃ doc2,
      (update_metadata_field st docId key value).2 = Except.ok () ∧
      es_get_document (update_metadata_field st docId key value).1 docId =
        some doc2 ∧
      doc2.source.metadata = metaSet doc.source.metadata key value ∧
      metaGet doc2.source.metadata key = some value ∧
      (∀ k2, ¬ k2 = key →
        metaGet doc2.source.metadata k2 = metaGet doc.source.metadata k2) ∧
      doc2.id = doc.id ∧
      doc2.source.file_name = doc.source.file_name ∧
      doc2.source.file_hash = doc.source.file_hash ∧
      doc2.source.s3_object_name = doc.source.s3_object_name := by
  refine ⟨{ doc with source :=
      { doc.source with metadata := metaSet doc.source.metadata key value } },
    ?_, ?_, rfl, metaGet_metaSet_self _ _ _,
    fun k2 hk2 => metaGet_metaSet_ne _ _ _ _ hk2, rfl, rfl, rfl, rfl⟩
  · unfold update_metadata_field
    rw [hdoc]
  · unfold update_metadata_field
    rw [hdoc]
    dsimp only
    rw [es_get_document_update, hdoc]
    have hm := mergeMeta_metaSet doc.source.metadata key value hkeys
    simp [hm]

/-- Witness for C9 at a concrete state and document. -/
theorem update_metadata_field_spec_witness :
    ∃ doc2,
      (update_metadata_field renamedState 0 "original-key" (some "z")).2 =
        Except.ok () ∧
      es_get_document
          (update_metadata_field renamedState 0 "original-key" (some "z")).1 0 =
        some doc2 ∧
      metaGet doc2.source.metadata "original-key" = some (some "z") ∧
      metaGet doc2.source.metadata "original-file-name" = some (some "y.txt") := by
  obtain ⟨doc2, h1, h2, h3, h4, h5, h6, h7, h8, h9⟩ :=
    update_metadata_field_spec renamedState 0 "original-key" (some "z")
      { id := 0,
        source :=
          { file_name := "x.txt", file_hash := "h", s3_object_name := "b/x.txt",
            metadata := [("original-key", none),
                         ("original-file-name", some "y.txt")] } }
      (by decide) (by decide)
  refine ⟨doc2, h1, h2, h4, ?_⟩
  rw [h5 "original-file-name" (by decide)]
  decide

/-- Claim C7: each listed entry's size is the size the blob store reports
for that object, and its display name is the first index record's
`original-file-name` when a record for `bucket/name` exists (falling back
to the raw object name when the record lacks that key), and the raw object
name when no record exists. -/
theorem list_files_entry_spec (st : Sys) (bucketName : String)
    (pre : Option String) (entry : ListEntry)
    (hmem : entry ∈ list_files st bucketName pre) :
    entry.file_size =
      (s3_head_size st (bucketName ++ "/" ++ entry.s3_object_name)).getD 0 ∧
    (∀ hit t,
      (es_search st.index (fun d =>
        d.source.s3_object_name == bucketName ++ "/" ++ entry.s3_object_name)).hits =
          hit :: t →
      ((∀ v, metaGet hit.source.metadata "original-file-name" = some v →
          entry.file_name = v) ∧
        (metaGet hit.source.metadata "original-file-name" = none →
          entry.file_name = some entry.s3_object_name))) ∧
    ((es_search st.index (fun d =>
        d.source.s3_object_name == bucketName ++ "/" ++ entry.s3_object_name)).hits = [] →
      entry.file_name = some entry.s3_object_name) := by
  obtain ⟨s3File, hs3, hentry⟩ := List.mem_map.mp hmem
  subst hentry
  dsimp only
  refine ⟨rfl, ?_, ?_⟩
  · intro hit t hh
    constructor
    · intro v hv
      simp only [hh, hv]
    · intro hv
      simp only [hh, hv]
  · intro hh
    simp only [hh]

/-- Witness for C7 at a concrete state. -/
theorem list_files_entry_spec_witness :
    ∃ entry ∈ list_files renamedState "b" none,
      entry.file_size =
        (s3_head_size renamedState ("b" ++ "/" ++ entry.s3_object_name)).getD 0 ∧
      entry.file_name = some "y.txt" := by
  have hmem : ListEntry.mk (some "y.txt") "x.txt" 1 ∈
      list_files renamedState "b" none := by
    decide
  obtain ⟨h1, h2, h3⟩ := list_files_entry_spec renamedState "b" none _ hmem
  refine ⟨_, hmem, h1, ?_⟩
  exact (h2 (Doc.mk 0 (FileDoc.mk "x.txt" "h" "b/x.txt"
      [("original-key", none), ("original-file-name", some "y.txt")])) []
      (by decide)).1 (some "y.txt") (by decide)

/-- Counterexample to claim C2: `linkFirstState` satisfies the
single-canonical invariant, but its index lists the link record before the
canonical record, so the dedup search returns the link first and the
uploaded duplicate is indexed with `original-key` pointing at the link —
the invariant no longer holds afterwards. -/
theorem upload_breaks_invariant_when_link_is_first_hit :
    Invariant linkFirstState.index ∧
    ¬ Invariant (upload_file id "U" linkFirstState "/tmp/n.txt" "h" "b"
        none).1.index :=
  ⟨by decide, by decide⟩

/-- A bucket-qualified object key is never the empty string. -/
theorem bucket_key_ne_empty (bucketName l : String) :
    bucketName ++ "/" ++ l ≠ "" := by
  intro hc
  have hlen := congrArg String.length hc
  simp [String.length_append] at hlen
  have h1 : ("/" : String).length = 1 := rfl
  rw [h1] at hlen
  omega

/-- Appending a link record that points at the first (hence canonical)
record with its hash preserves the single-canonical invariant, the
earliest-record-is-canonical ordering, and key non-emptiness. -/
theorem invariant_append_link (index : List Doc) (nd : Doc) (c : Doc)
    (hInv : Invariant index) (hCF : CanonicalFirst index)
    (hKeys : KeysNonempty index)
    (hc : index.find? (fun x => x.source.file_hash == nd.source.file_hash) =
      some c)
    (hmeta : metaGet nd.source.metadata "original-key" =
      some (some c.source.s3_object_name))
    (hkey : nd.source.s3_object_name ≠ "") :
    Invariant (index ++ [nd]) ∧ CanonicalFirst (index ++ [nd]) ∧
      KeysNonempty (index ++ [nd]) := by
  have hcmem : c ∈ index := List.mem_of_find?_eq_some hc
  have hchash : c.source.file_hash = nd.source.file_hash := by
    have := List.find?_some hc
    simpa using this
  have hccan : origKeyEmpty c.source = true := by
    have := hCF c hcmem
    unfold firstHashHitCanonical at this
    rw [hchash, hc] at this
    exact this
  have hndlink : origKeyEmpty nd.source = false := by
    unfold origKeyEmpty
    rw [hmeta]
    have := hKeys c hcmem
    simpa using this
  refine ⟨⟨?_, ?_⟩, ?_, ?_⟩
  · intro d1 h1 d2 h2 hh h1c h2c
    rcases List.mem_append.mp h1 with h1m | h1m
    · rcases List.mem_append.mp h2 with h2m | h2m
      · exact hInv.1 d1 h1m d2 h2m hh h1c h2c
      · have : d2 = nd := by simpa using h2m
        rw [this] at h2c
        rw [hndlink] at h2c
        simp at h2c
    · have : d1 = nd := by simpa using h1m
      rw [this] at h1c
      rw [hndlink] at h1c
      simp at h1c
  · intro d hd hdc
    rcases List.mem_append.mp hd with hm | hm
    · obtain ⟨c2, hc2, hh2, hcan2, hpt2⟩ := hInv.2 d hm hdc
      exact ⟨c2, List.mem_append.mpr (Or.inl hc2), hh2, hcan2, hpt2⟩
    · have hdnd : d = nd := by simpa using hm
      subst hdnd
      exact ⟨c, List.mem_append.mpr (Or.inl hcmem), hchash, hccan, hmeta⟩
  · intro d hd
    unfold firstHashHitCanonical
    rw [List.find?_append]
    rcases List.mem_append.mp hd with hm | hm
    · have hsome : (index.find? (fun x =>
          x.source.file_hash == d.source.file_hash)).isSome = true :=
        List.find?_isSome.mpr ⟨d, hm, by simp⟩
      cases hf : index.find? (fun x => x.source.file_hash == d.source.file_hash) with
      | none => rw [hf] at hsome; simp at hsome
      | some c2 =>
        simp only [hf, Option.or_some]
        have := hCF d hm
        unfold firstHashHitCanonical at this
        rw [hf] at this
        exact this
    · have hdnd : d = nd := by simpa using hm
      subst hdnd
      rw [hc]
      simpa using hccan
  · intro d hd
    rcases List.mem_append.mp hd with hm | hm
    · exact hKeys d hm
    · have hdnd : d = nd := by simpa using hm
      subst hdnd
      exact hkey

/-- Appending a canonical record for a hash not yet present preserves the
single-canonical invariant, the ordering discipline, and key
non-emptiness. -/
theorem invariant_append_canonical (index : List Doc) (nd : Doc)
    (hInv : Invariant index) (hCF : CanonicalFirst index)
    (hKeys : KeysNonempty index)
    (hfresh : index.find? (fun x => x.source.file_hash == nd.source.file_hash) =
      none)
    (hmeta : metaGet nd.source.metadata "original-key" = some none)
    (hkey : nd.source.s3_object_name ≠ "") :
    Invariant (index ++ [nd]) ∧ CanonicalFirst (index ++ [nd]) ∧
      KeysNonempty (index ++ [nd]) := by
  have hnone : ∀ x ∈ index, ¬ x.source.file_hash = nd.source.file_hash := by
    intro x hx hc
    have := List.find?_eq_none.mp hfresh x hx
    simp [hc] at this
  have hndcan : origKeyEmpty nd.source = true := by
    unfold origKeyEmpty
    rw [hmeta]
  refine ⟨⟨?_, ?_⟩, ?_, ?_⟩
  · intro d1 h1 d2 h2 hh h1c h2c
    rcases List.mem_append.mp h1 with h1m | h1m
    · rcases List.mem_append.mp h2 with h2m | h2m
      · exact hInv.1 d1 h1m d2 h2m hh h1c h2c
      · have h2nd : d2 = nd := by simpa using h2m
        subst h2nd
        exact absurd hh (hnone d1 h1m)
    · have h1nd : d1 = nd := by simpa using h1m
      rcases List.mem_append.mp h2 with h2m | h2m
      · refine absurd ?_ (hnone d2 h2m)
        rw [← h1nd]
        exact hh.symm
      · have h2nd : d2 = nd := by simpa using h2m
        rw [h1nd, h2nd]
  · intro d hd hdc
    rcases List.mem_append.mp hd with hm | hm
    · obtain ⟨c2, hc2, hh2, hcan2, hpt2⟩ := hInv.2 d hm hdc
      exact ⟨c2, List.mem_append.mpr (Or.inl hc2), hh2, hcan2, hpt2⟩
    · have hdnd : d = nd := by simpa using hm
      subst hdnd
      rw [hndcan] at hdc
      simp at hdc
  · intro d hd
    unfold firstHashHitCanonical
    rw [List.find?_append]
    rcases List.mem_append.mp hd with hm | hm
    · have hsome : (index.find? (fun x =>
          x.source.file_hash == d.source.file_hash)).isSome = true :=
        List.find?_isSome.mpr ⟨d, hm, by simp⟩
      cases hf : index.find? (fun x => x.source.file_hash == d.source.file_hash) with
      | none => rw [hf] at hsome; simp at hsome
      | some c2 =>
        simp only [hf, Option.or_some]
        have := hCF d hm
        unfold firstHashHitCanonical at this
        rw [hf] at this
        exact this
    · have hdnd : d = nd := by simpa using hm
      subst hdnd
      rw [hfresh]
      simpa using hndcan
  · intro d hd
    rcases List.mem_append.mp hd with hm | hm
    · exact hKeys d hm
    · have hdnd : d = nd := by simpa using hm
      subst hdnd
      exact hkey

/-- Amended claim C2: from a state satisfying the single-canonical
invariant in which, additionally, the earliest index record for every hash
is the canonical one (so the first search hit the code trusts is indeed
canonical) and all object keys are non-empty, every upload preserves the
invariant — and preserves the two auxiliary properties as well. -/
theorem upload_preserves_single_canonical_invariant
    (hashFn : String → String) (u : String) (st : Sys)
    (filePath content bucketName : String) (objectName : Option String)
    (hInv : Invariant st.index) (hCF : CanonicalFirst st.index)
    (hKeys : KeysNonempty st.index) :
    Invariant (upload_file hashFn u st filePath content bucketName
      objectName).1.index ∧
    CanonicalFirst (upload_file hashFn u st filePath content bucketName
      objectName).1.index ∧
    KeysNonempty (upload_file hashFn u st filePath content bucketName
      objectName).1.index := by
  rcases hh : (es_search st.index fun d => d.source.file_hash == hashFn content).hits
    with _ | ⟨a, t⟩
  · have hfresh : st.index.find? (fun d => d.source.file_hash == hashFn content) =
        none := (es_search_hits_nil _ _).mp hh
    have hred : (upload_file hashFn u st filePath content bucketName
        objectName).1.index =
        st.index ++ [⟨st.nextId,
          { file_name :=
              if s3_object_exists st bucketName (resolveName objectName filePath) = true
                then generate_unique_name (resolveName objectName filePath) u
                else resolveName objectName filePath,
            file_hash := hashFn content,
            s3_object_name := bucketName ++ "/" ++
              (if s3_object_exists st bucketName (resolveName objectName filePath) = true
                then generate_unique_name (resolveName objectName filePath) u
                else resolveName objectName filePath),
            metadata := [("original-key", none),
                         ("original-file-name", some (pathBasename filePath))] }⟩] := by
      simp only [upload_file, hh, es_index_document, s3_upload_file, setBlob]
    rw [hred]
    exact invariant_append_canonical st.index _ hInv hCF hKeys hfresh rfl
      (bucket_key_ne_empty _ _)
  · have hfind : st.index.find? (fun d => d.source.file_hash == hashFn content) =
        some a := by
      have := es_search_hits_head st.index
        (fun d => d.source.file_hash == hashFn content)
      rw [hh] at this
      exact this.symm
    have hred : (upload_file hashFn u st filePath content bucketName
        objectName).1.index =
        st.index ++ [⟨st.nextId,
          { file_name :=
              if s3_object_exists st bucketName (resolveName objectName filePath) = true
                then generate_unique_name (resolveName objectName filePath) u
                else resolveName objectName filePath,
            file_hash := hashFn content,
            s3_object_name := bucketName ++ "/" ++
              (if s3_object_exists st bucketName (resolveName objectName filePath) = true
                then generate_unique_name (resolveName objectName filePath) u
                else resolveName objectName filePath),
            metadata := [("original-key", some a.source.s3_object_name),
                         ("linked-file-hash", some (hashFn content)),
                         ("original-file-name", some (pathBasename filePath))] }⟩] := by
      simp only [upload_file, hh, es_index_document, s3_create_link, setBlob]
    rw [hred]
    exact invariant_append_link st.index _ a hInv hCF hKeys hfind rfl
      (bucket_key_ne_empty _ _)

/-- Witness for the amended C2 at a concrete well-ordered state. -/
theorem upload_preserves_single_canonical_invariant_witness :
    Invariant (upload_file id "U" canonicalFirstState "/tmp/n.txt" "h" "b"
      none).1.index :=
  (upload_preserves_single_canonical_invariant id "U" canonicalFirstState
    "/tmp/n.txt" "h" "b" none (by decide) (by decide) (by decide)).1

/-- With unique ids, searching a list member's id finds that member. -/
theorem find?_id_of_mem_nodup (l : List Doc)
    (hids : (l.map (fun d => d.id)).Nodup) (d : Doc) (hd : d ∈ l) :
    l.find? (fun x => x.id == d.id) = some d := by
  induction l with
  | nil => simp at hd
  | cons a rest ih =>
    have hnd : (∀ x ∈ rest, ¬ x.id = a.id) ∧
        (rest.map (fun x => x.id)).Nodup := by simpa using hids
    rcases List.mem_cons.mp hd with h1 | h1
    · subst h1
      simp [List.find?_cons]
    · have hne : (a.id == d.id) = false := by
        simpa using fun hc => (hnd.1 d h1) hc.symm
      simp only [List.find?_cons, hne]
      exact ih hnd.2 h1

/-- With unique ids, two members with the same id are equal. -/
theorem eq_of_mem_nodup_id (l : List Doc)
    (hids : (l.map (fun d => d.id)).Nodup) (d d2 : Doc) (hd : d ∈ l)
    (hd2 : d2 ∈ l) (hid : d.id = d2.id) : d = d2 := by
  have h1 := find?_id_of_mem_nodup l hids d hd
  have h2 := find?_id_of_mem_nodup l hids d2 hd2
  rw [hid] at h1
  rw [h1] at h2
  exact (Option.some.inj h2)

/-- Searching for an id different from the updated one is unaffected by an
id-preserving conditional map. -/
theorem find?_map_update_ne (l : List Doc) (docId : Nat) (g : Doc → Doc)
    (hg : ∀ d, (g d).id = d.id) (j : Nat) (hne : ¬ j = docId) :
    (l.map (fun d => if d.id == docId then g d else d)).find?
        (fun d => d.id == j) =
      l.find? (fun d => d.id == j) := by
  induction l with
  | nil => rfl
  | cons d rest ih =>
    by_cases hdd : d.id = docId
    · have hdd2 : (d.id == docId) = true := by simpa using hdd
      have hj : (d.id == j) = false := by
        simp [hdd]
        intro hc
        exact hne hc.symm
      have hgj : ((g d).id == j) = false := by rw [hg d]; exact hj
      simp only [List.map_cons, hdd2, if_true, List.find?_cons, hgj, hj]
      exact ih
    · have hdd2 : (d.id == docId) = false := by simpa using hdd
      simp only [List.map_cons, hdd2, Bool.false_eq_true, if_false,
        List.find?_cons]
      by_cases hj : d.id = j
      · simp [hj]
      · have hj2 : (d.id == j) = false := by simpa using hj
        simp only [hj2]
        exact ih

/-- An id-preserving conditional map leaves the id list unchanged. -/
theorem ids_map_update (l : List Doc) (docId : Nat) (g : Doc → Doc)
    (hg : ∀ d, (g d).id = d.id) :
    (l.map (fun d => if d.id == docId then g d else d)).map (fun d => d.id) =
      l.map (fun d => d.id) := by
  induction l with
  | nil => rfl
  | cons d rest ih =>
    by_cases hdd : d.id = docId
    · have hdd2 : (d.id == docId) = true := by simpa using hdd
      simp only [List.map_cons, hdd2, if_true, hg d]
      rw [ih]
    · have hdd2 : (d.id == docId) = false := by simpa using hdd
      simp only [List.map_cons, hdd2, Bool.false_eq_true, if_false]
      rw [ih]

/-- Filtering away elements that cannot match the search predicate leaves
the search result unchanged. -/
theorem find?_filter_disjoint {α : Type} (l : List α) (p q : α → Bool)
    (h : ∀ x, q x = true → p x = false) :
    (l.filter (fun x => !(p x))).find? q = l.find? q := by
  induction l with
  | nil => rfl
  | cons a rest ih =>
    by_cases hq : q a = true
    · have hp : p a = false := h a hq
      simp only [List.filter_cons, hp, Bool.not_false, if_true,
        List.find?_cons, hq]
    · have hq2 : q a = false := by simpa using hq
      by_cases hp : p a = true
      · simp only [List.filter_cons, hp, Bool.not_true, Bool.false_eq_true,
          if_false, List.find?_cons, hq2]
        exact ih
      · have hp2 : p a = false := by simpa using hp
        simp only [List.filter_cons, hp2, Bool.not_false, if_true,
          List.find?_cons, hq2]
        exact ih

/-- Searching for what was just filtered away finds nothing. -/
theorem find?_filter_self {α : Type} (l : List α) (p : α → Bool) :
    (l.filter (fun x => !(p x))).find? p = none := by
  apply List.find?_eq_none.mpr
  intro x hx
  have := (List.mem_filter.mp hx).2
  simp at this
  simp [this]

/-- `update_metadata_field` never touches the blob store. -/
theorem update_metadata_field_blobs (st : Sys) (docId : Nat) (key : String)
    (value : Option String) :
    (update_metadata_field st docId key value).1.blobs = st.blobs := by
  unfold update_metadata_field
  cases es_get_document st docId <;> rfl

/-- The blob write of promotion leaves the index unchanged. -/
theorem s3_upload_object_body_index (st : Sys) (key content : String) :
    (s3_upload_object_body st key content).index = st.index := rfl

/-- The index after `es_update_document` is the conditional map of the old
index. -/
theorem es_update_document_index (st : Sys) (docId : Nat) (newMeta : Meta) :
    (es_update_document st docId newMeta).index =
      st.index.map (fun d =>
        if d.id == docId then
          { d with source :=
              { d.source with metadata := mergeMeta d.source.metadata newMeta } }
        else d) := rfl

/-- Setting the same key twice keeps only the second value. -/
theorem metaSet_metaSet_self (m : Meta) (k : String) (v v2 : Option String) :
    metaSet (metaSet m k v) k v2 = metaSet m k v2 := by
  induction m with
  | nil => simp [metaSet]
  | cons kv rest ih =>
    by_cases hk : kv.1 == k
    · simp [metaSet, hk]
    · simp only [metaSet, hk, Bool.false_eq_true, if_false]
      rw [ih]

/-- The metadata merge write of `es_update_document` leaves the blobs
unchanged. -/
theorem es_update_document_blobs (st : Sys) (docId : Nat) (newMeta : Meta) :
    (es_update_document st docId newMeta).blobs = st.blobs := rfl

/-- Effect of the re-pointing loop of `promote_one_link_to_original`: when
every listed document is present (under unique ids, with dict-like
metadata), the loop succeeds, touches no blobs, keeps the id list, sets
`original-key` to the new key on exactly the listed documents, and leaves
every other document alone. -/
theorem fold_repoint_spec (rs : List Doc) : ∀ (s : Sys) (newKey : String),
    IdsNodup s.index →
    ((rs.map (fun d => d.id)).Nodup : Prop) →
    (∀ d ∈ rs, s.index.find? (fun x => x.id == d.id) = some d) →
    (∀ d ∈ rs, ((d.source.metadata.map (fun kv => kv.1)).Nodup : Prop)) →
    ∃ s2,
      rs.foldl (fun acc link =>
        match acc with
        | (t, Except.error e) => (t, Except.error e)
        | (t, Except.ok _) =>
          update_metadata_field t link.id "original-key" (some newKey))
        (s, Except.ok ()) = (s2, Except.ok ()) ∧
      s2.blobs = s.blobs ∧
      s2.index.map (fun d => d.id) = s.index.map (fun d => d.id) ∧
      (∀ d ∈ rs, es_get_document s2 d.id = some
        { d with source := { d.source with
            metadata := metaSet d.source.metadata "original-key"
              (some newKey) } }) ∧
      (∀ j, ¬ j ∈ rs.map (fun d => d.id) →
        es_get_document s2 j = es_get_document s j) ∧
      (∀ d2 ∈ s2.index, ∃ d, d ∈ s.index ∧ d2.id = d.id ∧
        (d2 = d ∨ d2.source.metadata =
          metaSet d.source.metadata "original-key" (some newKey))) := by
  induction rs with
  | nil =>
    intro s newKey hglobal hnd hmem hmk
    exact ⟨s, rfl, rfl, rfl, by simp, fun j hj => rfl,
      fun d2 h2 => ⟨d2, h2, rfl, Or.inl rfl⟩⟩
  | cons r rs2 ih =>
    intro s newKey hglobal hnd hmem hmk
    have hr : s.index.find? (fun x => x.id == r.id) = some r :=
      hmem r (List.mem_cons_self r rs2)
    have hrmem : r ∈ s.index := List.mem_of_find?_eq_some hr
    have hndr : (∀ x ∈ rs2, ¬ x.id = r.id) ∧
        ((rs2.map (fun d => d.id)).Nodup : Prop) := by simpa using hnd
    have hrmk : (r.source.metadata.map (fun kv => kv.1)).Nodup :=
      hmk r (List.mem_cons_self r rs2)
    have hstep : update_metadata_field s r.id "original-key" (some newKey) =
        (es_update_document s r.id
          (metaSet r.source.metadata "original-key" (some newKey)),
         Except.ok ()) := by
      unfold update_metadata_field
      rw [show es_get_document s r.id = some r from hr]
    set g : Doc → Doc := fun d =>
      if d.id == r.id then
        { d with source := { d.source with
            metadata := mergeMeta d.source.metadata
              (metaSet r.source.metadata "original-key" (some newKey)) } }
      else d with hg
    set sA : Sys := es_update_document s r.id
      (metaSet r.source.metadata "original-key" (some newKey)) with hsA
    have hAindex : sA.index = s.index.map g := rfl
    have hAids : sA.index.map (fun d => d.id) = s.index.map (fun d => d.id) := by
      rw [hAindex]
      exact ids_map_update s.index r.id _ (fun d => by
        by_cases h : d.id == r.id <;> simp [g, h])
    have hAglobal : IdsNodup sA.index := by
      unfold IdsNodup
      rw [hAids]
      exact hglobal
    have hAget_ne : ∀ j, ¬ j = r.id → es_get_document sA j = es_get_document s j := by
      intro j hj
      unfold es_get_document
      rw [hAindex]
      exact find?_map_update_ne s.index r.id _ (fun d => by
        by_cases h : d.id == r.id <;> simp [g, h]) j hj
    have hAget_r : es_get_document sA r.id = some
        { r with source := { r.source with
            metadata := metaSet r.source.metadata "original-key"
              (some newKey) } } := by
      unfold es_get_document
      rw [hAindex]
      rw [find?_map_update s.index r.id _ (fun d => by
        by_cases h : d.id == r.id <;> simp [g, h])]
      rw [hr]
      simp only [Option.map_some', g, beq_self_eq_true, if_true]
      rw [mergeMeta_metaSet r.source.metadata _ _ hrmk]
    have hAmem : ∀ d ∈ rs2, sA.index.find? (fun x => x.id == d.id) = some d := by
      intro d hd
      have hne : ¬ d.id = r.id := hndr.1 d hd
      have := hAget_ne d.id hne
      unfold es_get_document at this
      rw [this]
      exact hmem d (List.mem_cons_of_mem r hd)
    obtain ⟨s2, hfold, hblobs, hids2, hset, hframe, hshape⟩ :=
      ih sA newKey hAglobal hndr.2 hAmem
        (fun d hd => hmk d (List.mem_cons_of_mem r hd))
    refine ⟨s2, ?_, ?_, ?_, ?_, ?_, ?_⟩
    · rw [List.foldl_cons]
      have hstep2 : (match ((s, Except.ok ()) : Sys × Except String Unit) with
          | (t, Except.error e) => (t, Except.error e)
          | (t, Except.ok _) =>
            update_metadata_field t r.id "original-key" (some newKey)) =
          (sA, Except.ok ()) := hstep
      rw [hstep2]
      exact hfold
    · rw [hblobs]
      rfl
    · rw [hids2, hAids]
    · intro d hd
      rcases List.mem_cons.mp hd with h1 | h1
      · subst h1
        have hnin : ¬ d.id ∈ rs2.map (fun x => x.id) := by
          intro hc
          obtain ⟨x, hx, hxid⟩ := List.mem_map.mp hc
          exact (hndr.1 x hx) hxid
        rw [hframe d.id hnin]
        exact hAget_r
      · exact hset d h1
    · intro j hj
      have hj2 : ¬ j ∈ rs2.map (fun d => d.id) := by
        intro hc
        exact hj (by simp [hc])
      have hjr : ¬ j = r.id := by
        intro hc
        exact hj (by simp [hc])
      rw [hframe j hj2]
      exact hAget_ne j hjr
    · intro d2 h2
      obtain ⟨dA, hdA, hid, hcase⟩ := hshape d2 h2
      rw [hAindex] at hdA
      obtain ⟨d, hdmem, hdeq⟩ := List.mem_map.mp hdA
      by_cases hdid : d.id = r.id
      · have hdr : d = r := eq_of_mem_nodup_id s.index hglobal d r hdmem hrmem hdid
        subst hdr
        have hgd : dA = { d with source := { d.source with
            metadata := metaSet d.source.metadata "original-key"
              (some newKey) } } := by
          rw [← hdeq]
          simp only [g, beq_self_eq_true, if_true]
          rw [mergeMeta_metaSet d.source.metadata _ _ hrmk]
        refine ⟨d, hdmem, ?_, Or.inr ?_⟩
        · rw [hid, hgd]
        · rcases hcase with hc1 | hc1
          · rw [hc1, hgd]
          · rw [hc1, hgd]
            exact metaSet_metaSet_self _ _ _ _
      · have hgd : dA = d := by
          rw [← hdeq]
          simp only [g, show (d.id == r.id) = false by simpa using hdid,
            Bool.false_eq_true, if_false]
        rw [hgd] at hid hcase
        exact ⟨d, hdmem, hid, hcase⟩

/-- Promoting via the single-link routine is the same computation as the
multi-link routine applied to a one-element hit list. -/
theorem promote_single_eq_promote_one (st : Sys) (single : Doc)
    (content : String) :
    promote_single_link_to_original st single content =
      promote_one_link_to_original st [single] content := by
  unfold promote_single_link_to_original promote_one_link_to_original
  dsimp only
  cases hres : update_metadata_field
      (s3_upload_object_body st single.source.s3_object_name content)
      single.id "original-key" none with
  | mk s e => cases e <;> rfl

/-- Effect of `promote_one_link_to_original` on a non-empty hit list: the
first hit gets the canonical bytes copied onto its object key and its
`original-key` cleared, every other hit gets `original-key` re-pointed at
the first hit's object key, and every remaining document is either one of
the hits so updated or untouched. -/
theorem promote_one_spec (st : Sys) (d0 : Doc) (rest : List Doc)
    (content : String)
    (hglobal : IdsNodup st.index)
    (hmemall : ∀ d ∈ d0 :: rest, d ∈ st.index)
    (hdistinct : (((d0 :: rest).map (fun d => d.id)).Nodup : Prop))
    (hmk : ∀ d ∈ d0 :: rest,
      ((d.source.metadata.map (fun kv => kv.1)).Nodup : Prop)) :
    ∃ st2, promote_one_link_to_original st (d0 :: rest) content =
        (st2, Except.ok ()) ∧
      st2.blobs =
        (s3_upload_object_body st d0.source.s3_object_name content).blobs ∧
      st2.index.map (fun d => d.id) = st.index.map (fun d => d.id) ∧
      es_get_document st2 d0.id = some
        { d0 with source := { d0.source with
            metadata := metaSet d0.source.metadata "original-key" none } } ∧
      (∀ d ∈ rest, es_get_document st2 d.id = some
        { d with source := { d.source with
            metadata := metaSet d.source.metadata "original-key"
              (some d0.source.s3_object_name) } }) ∧
      (∀ d2 ∈ st2.index, ∃ d, d ∈ st.index ∧ d2.id = d.id ∧
        ((d2 = d ∧ ¬ d ∈ d0 :: rest) ∨
         d2.source.metadata = metaSet d.source.metadata "original-key" none ∨
         d2.source.metadata = metaSet d.source.metadata "original-key"
           (some d0.source.s3_object_name))) := by
  have hd0mem : d0 ∈ st.index := hmemall d0 (List.mem_cons_self d0 rest)
  have hd0mk : (d0.source.metadata.map (fun kv => kv.1)).Nodup :=
    hmk d0 (List.mem_cons_self d0 rest)
  have hndr : (∀ x ∈ rest, ¬ x.id = d0.id) ∧
      ((rest.map (fun d => d.id)).Nodup : Prop) := by simpa using hdistinct
  set st1 : Sys := s3_upload_object_body st d0.source.s3_object_name content
    with hst1
  have hst1index : st1.index = st.index := rfl
  have hd0findSt : st.index.find? (fun x => x.id == d0.id) = some d0 :=
    find?_id_of_mem_nodup st.index hglobal d0 hd0mem
  have hd0find : st1.index.find? (fun x => x.id == d0.id) = some d0 := by
    rw [hst1index]
    exact hd0findSt
  have hstep : update_metadata_field st1 d0.id "original-key" none =
      (es_update_document st1 d0.id
        (metaSet d0.source.metadata "original-key" none),
       Except.ok ()) := by
    unfold update_metadata_field
    rw [show es_get_document st1 d0.id = some d0 from hd0find]
  set sB : Sys := es_update_document st1 d0.id
    (metaSet d0.source.metadata "original-key" none) with hsB
  have hBindex : sB.index = st.index.map (fun d =>
      if d.id == d0.id then
        { d with source := { d.source with
            metadata := mergeMeta d.source.metadata
              (metaSet d0.source.metadata "original-key" none) } }
      else d) := rfl
  have hBids : sB.index.map (fun d => d.id) = st.index.map (fun d => d.id) := by
    rw [hBindex]
    exact ids_map_update st.index d0.id
      (fun d =>
        { d with source := { d.source with
            metadata := mergeMeta d.source.metadata
              (metaSet d0.source.metadata "original-key" none) } }) (fun d => rfl)
  have hBglobal : IdsNodup sB.index := by
    unfold IdsNodup
    rw [hBids]
    exact hglobal
  have hBget_ne : ∀ j, ¬ j = d0.id →
      es_get_document sB j = es_get_document st j := by
    intro j hj
    unfold es_get_document
    rw [hBindex]
    exact find?_map_update_ne st.index d0.id
      (fun d =>
        { d with source := { d.source with
            metadata := mergeMeta d.source.metadata
              (metaSet d0.source.metadata "original-key" none) } }) (fun d => rfl) j hj
  have hBget_d0 : es_get_document sB d0.id = some
      { d0 with source := { d0.source with
          metadata := metaSet d0.source.metadata "original-key" none } } := by
    unfold es_get_document
    rw [hBindex]
    rw [find?_map_update st.index d0.id
      (fun d =>
        { d with source := { d.source with
            metadata := mergeMeta d.source.metadata
              (metaSet d0.source.metadata "original-key" none) } }) (fun d => rfl)]
    rw [hd0findSt]
    simp only [Option.map_some']
    rw [mergeMeta_metaSet d0.source.metadata _ _ hd0mk]
  have hBmem : ∀ d ∈ rest, sB.index.find? (fun x => x.id == d.id) = some d := by
    intro d hd
    have hne : ¬ d.id = d0.id := hndr.1 d hd
    have h1 := hBget_ne d.id hne
    unfold es_get_document at h1
    rw [h1]
    exact find?_id_of_mem_nodup st.index hglobal d
      (hmemall d (List.mem_cons_of_mem d0 hd))
  obtain ⟨s2, hfold, hblobs, hids2, hset, hframe, hshape⟩ :=
    fold_repoint_spec rest sB d0.source.s3_object_name hBglobal hndr.2 hBmem
      (fun d hd => hmk d (List.mem_cons_of_mem d0 hd))
  have hresult : promote_one_link_to_original st (d0 :: rest) content =
      (s2, Except.ok ()) := by
    unfold promote_one_link_to_original
    dsimp only
    rw [hstep]
    exact hfold
  have hs2global : IdsNodup s2.index := by
    unfold IdsNodup
    rw [hids2, hBids]
    exact hglobal
  refine ⟨s2, hresult, ?_, ?_, ?_, ?_, ?_⟩
  · rw [hblobs]
    rfl
  · rw [hids2, hBids]
  · have hnin : ¬ d0.id ∈ rest.map (fun x => x.id) := by
      intro hc
      obtain ⟨x, hx, hxid⟩ := List.mem_map.mp hc
      exact (hndr.1 x hx) hxid
    rw [hframe d0.id hnin]
    exact hBget_d0
  · intro d hd
    exact hset d hd
  · intro d2 h2
    obtain ⟨dB, hdB, hid, hcase⟩ := hshape d2 h2
    rw [hBindex] at hdB
    obtain ⟨d, hdmem, hdeq⟩ := List.mem_map.mp hdB
    by_cases hdid : d.id = d0.id
    · have hdr : d = d0 :=
        eq_of_mem_nodup_id st.index hglobal d d0 hdmem hd0mem hdid
      subst hdr
      have hgd : dB = { d with source := { d.source with
          metadata := metaSet d.source.metadata "original-key" none } } := by
        rw [← hdeq]
        simp only [beq_self_eq_true, if_true]
        rw [mergeMeta_metaSet d.source.metadata _ _ hd0mk]
      refine ⟨d, hdmem, by rw [hid, hgd], ?_⟩
      rcases hcase with hc1 | hc1
      · exact Or.inr (Or.inl (by rw [hc1, hgd]))
      · refine Or.inr (Or.inr ?_)
        rw [hc1, hgd]
        exact metaSet_metaSet_self _ _ _ _
    · have hgd : dB = d := by
        rw [← hdeq]
        simp only [show (d.id == d0.id) = false by simpa using hdid,
          Bool.false_eq_true, if_false]
      rw [hgd] at hid hcase
      rcases hcase with hc1 | hc1
      · by_cases hin : d ∈ d0 :: rest
        · rcases List.mem_cons.mp hin with h1 | h1
          · exact absurd (by rw [h1]) hdid
          · have hupd := hset d h1
            have hfind2 : es_get_document s2 d.id = some d2 := by
              unfold es_get_document
              rw [show d.id = d2.id from hid.symm]
              exact find?_id_of_mem_nodup s2.index hs2global d2 h2
            rw [hfind2] at hupd
            refine ⟨d, hdmem, hid, Or.inr (Or.inr ?_)⟩
            have := Option.some.inj hupd
            rw [this]
        · exact ⟨d, hdmem, hid, Or.inl ⟨hc1, hin⟩⟩
      · exact ⟨d, hdmem, hid, Or.inr (Or.inr hc1)⟩

/-- Blob lookup depends only on the blob list. -/
theorem lookupBlob_congr (st st2 : Sys) (key : String)
    (h : st.blobs = st2.blobs) : lookupBlob st key = lookupBlob st2 key := by
  unfold lookupBlob
  rw [h]

/-- Amended claim C1: when the deleted record has between 1 and 10
dependents (the search page size is 10), deletion succeeds and promotes
exactly the first dependent in search-result order — the canonical bytes
are copied to its object key and its `original-key` is cleared — while
every other dependent's `original-key` is re-pointed at the promoted
object key; afterwards no record at all points at the deleted object key,
which is also gone from the blob store. -/
theorem delete_promotes_all_dependents
    (st : Sys) (fileName bucketName : String) (c d0 : Doc) (rest : List Doc)
    (content : String)
    (hfind : st.index.find? (fun d =>
      d.source.s3_object_name == bucketName ++ "/" ++ fileName) = some c)
    (hdeps : st.index.filter (fun d =>
      metaGet d.source.metadata "original-key" ==
        some (some (bucketName ++ "/" ++ fileName))) = d0 :: rest)
    (hlen : (d0 :: rest).length ≤ 10)
    (hbody : s3_get_object_body st (bucketName ++ "/" ++ fileName) =
      some content)
    (hids : IdsNodup st.index)
    (hmkeys : MetaKeysNodup st.index)
    (hkeyuniq : ∀ d ∈ st.index,
      d.source.s3_object_name = bucketName ++ "/" ++ fileName → d = c)
    (hcnotdep : ¬ metaGet c.source.metadata "original-key" =
      some (some (bucketName ++ "/" ++ fileName))) :
    ∃ st4,
      delete_file st fileName bucketName =
        (st4, Except.ok ("File " ++ (bucketName ++ "/" ++ fileName) ++
          " deleted.")) ∧
      (∃ p, es_get_document st4 d0.id = some p ∧
        metaGet p.source.metadata "original-key" = some none ∧
        p.source.s3_object_name = d0.source.s3_object_name) ∧
      lookupBlob st4 d0.source.s3_object_name =
        some (BlobObj.bytes content) ∧
      (∀ d ∈ rest, ∃ p, es_get_document st4 d.id = some p ∧
        metaGet p.source.metadata "original-key" =
          some (some d0.source.s3_object_name)) ∧
      (∀ d2 ∈ st4.index, ¬ metaGet d2.source.metadata "original-key" =
        some (some (bucketName ++ "/" ++ fileName))) ∧
      lookupBlob st4 (bucketName ++ "/" ++ fileName) = none := by
  have hck : c.source.s3_object_name = bucketName ++ "/" ++ fileName := by
    have := List.find?_some hfind
    simpa using this
  have hcmem : c ∈ st.index := List.mem_of_find?_eq_some hfind
  have hdepmem : ∀ d ∈ d0 :: rest, d ∈ st.index ∧
      metaGet d.source.metadata "original-key" =
        some (some (bucketName ++ "/" ++ fileName)) := by
    intro d hd
    rw [← hdeps] at hd
    have := List.mem_filter.mp hd
    exact ⟨this.1, by simpa using this.2⟩
  have hcnot : ¬ c ∈ d0 :: rest := by
    intro hc
    exact hcnotdep (hdepmem c hc).2
  have hdepids : (((d0 :: rest).map (fun d => d.id)).Nodup : Prop) := by
    have hsub : (st.index.filter (fun d =>
        metaGet d.source.metadata "original-key" ==
          some (some (bucketName ++ "/" ++ fileName)))).Sublist st.index :=
      List.filter_sublist st.index
    rw [hdeps] at hsub
    have hm := List.Sublist.map (fun d => d.id) hsub
    exact List.Nodup.sublist hm hids
  have hdep_ne_c : ∀ d ∈ d0 :: rest, ¬ d.id = c.id := by
    intro d hd hc
    have : d = c := eq_of_mem_nodup_id st.index hids d c (hdepmem d hd).1
      hcmem hc
    rw [this] at hd
    exact hcnot hd
  have hd0key : ¬ d0.source.s3_object_name = bucketName ++ "/" ++ fileName := by
    intro hc
    have heqc : d0 = c := hkeyuniq d0 (hdepmem d0 (List.mem_cons_self d0 rest)).1 hc
    apply hcnot
    rw [← heqc]
    exact List.mem_cons_self d0 rest
  have hsearchhits : (es_search st.index (fun d =>
      metaGet d.source.metadata "original-key" ==
        some (some (bucketName ++ "/" ++ fileName)))).hits = d0 :: rest := by
    unfold es_search
    dsimp only
    rw [hdeps]
    exact List.take_of_length_le hlen
  obtain ⟨st2, hpromres, hblobs2, hids2, hget_d0, hget_rest, hshape⟩ :=
    promote_one_spec st d0 rest content hids
      (fun d hd => (hdepmem d hd).1) hdepids
      (fun d hd => hmkeys d (hdepmem d hd).1)
  have hhandle : handle_links_before_deletion st
      (bucketName ++ "/" ++ fileName) = (st2, Except.ok ()) := by
    unfold handle_links_before_deletion
    dsimp only
    rw [hsearchhits, hbody]
    cases rest with
    | nil =>
      rw [← hpromres]
      exact promote_single_eq_promote_one st d0 content
    | cons r1 rs =>
      exact hpromres
  have hhead : (st.index.filter (fun d =>
      d.source.s3_object_name == bucketName ++ "/" ++ fileName)).head? =
      some c := by
    rw [filterHead_eq_find]
    exact hfind
  obtain ⟨tl, hfl⟩ : ∃ tl, st.index.filter (fun d =>
      d.source.s3_object_name == bucketName ++ "/" ++ fileName) = c :: tl := by
    cases hfl : st.index.filter (fun d =>
        d.source.s3_object_name == bucketName ++ "/" ++ fileName) with
    | nil => rw [hfl] at hhead; simp at hhead
    | cons a tl =>
      rw [hfl] at hhead
      have : a = c := by simpa using hhead
      exact ⟨tl, by rw [this]⟩
  have hdelhits : (es_search st.index (fun d =>
      d.source.s3_object_name == bucketName ++ "/" ++ fileName)).hits =
      c :: tl.take 9 := by
    unfold es_search
    dsimp only
    rw [hfl]
    rfl
  have hdelete : delete_file st fileName bucketName =
      (es_delete_document (s3_delete_file st2 bucketName fileName) c.id,
       Except.ok ("File " ++ (bucketName ++ "/" ++ fileName) ++
         " deleted.")) := by
    unfold delete_file
    dsimp only
    rw [hdelhits]
    dsimp only
    rw [hck, hhandle]
  set st4 : Sys :=
    es_delete_document (s3_delete_file st2 bucketName fileName) c.id with hst4
  have hst4index : st4.index =
      st2.index.filter (fun d => !(d.id == c.id)) := rfl
  have hst4blobs : st4.blobs =
      st2.blobs.filter (fun kv =>
        !(kv.1 == bucketName ++ "/" ++ fileName)) := rfl
  have hget4 : ∀ j, ¬ j = c.id →
      es_get_document st4 j = es_get_document st2 j := by
    intro j hj
    unfold es_get_document
    rw [hst4index]
    exact find?_filter_disjoint st2.index (fun d => d.id == c.id)
      (fun d => d.id == j)
      (fun x hx => by
        have hxj : x.id = j := by simpa using hx
        simp [hxj]
        intro hc
        exact hj hc)
  refine ⟨st4, hdelete, ?_, ?_, ?_, ?_, ?_⟩
  · refine ⟨{ d0 with source := { d0.source with
        metadata := metaSet d0.source.metadata "original-key" none } },
      ?_, metaGet_metaSet_self _ _ _, rfl⟩
    rw [hget4 d0.id (hdep_ne_c d0 (List.mem_cons_self d0 rest))]
    exact hget_d0
  · have h1 : lookupBlob st4 d0.source.s3_object_name =
        lookupBlob st2 d0.source.s3_object_name := by
      unfold lookupBlob
      rw [hst4blobs]
      rw [find?_filter_disjoint st2.blobs
        (fun kv => kv.1 == bucketName ++ "/" ++ fileName)
        (fun kv => kv.1 == d0.source.s3_object_name)
        (fun x hx => by
          have hxk : x.1 = d0.source.s3_object_name := by simpa using hx
          simp [hxk]
          intro hc
          exact hd0key hc)]
    rw [h1]
    rw [lookupBlob_congr st2
      (s3_upload_object_body st d0.source.s3_object_name content) _ hblobs2]
    exact lookupBlob_setBlob_self st _ _ _
  · intro d hd
    refine ⟨{ d with source := { d.source with
        metadata := metaSet d.source.metadata "original-key"
          (some d0.source.s3_object_name) } },
      ?_, metaGet_metaSet_self _ _ _⟩
    rw [hget4 d.id (hdep_ne_c d (List.mem_cons_of_mem d0 hd))]
    exact hget_rest d hd
  · intro d2 h2
    rw [hst4index] at h2
    have h2mem : d2 ∈ st2.index := (List.mem_filter.mp h2).1
    obtain ⟨d, hdmem, hdid, hcase⟩ := hshape d2 h2mem
    rcases hcase with ⟨hc1, hc2⟩ | hc1 | hc1
    · intro hcontra
      apply hc2
      rw [← hdeps]
      apply List.mem_filter.mpr
      refine ⟨hdmem, ?_⟩
      rw [hc1] at hcontra
      simpa using hcontra
    · rw [hc1]
      rw [metaGet_metaSet_self]
      simp
    · rw [hc1]
      rw [metaGet_metaSet_self]
      intro hcontra
      have := Option.some.inj (Option.some.inj hcontra)
      exact hd0key this
  · unfold lookupBlob
    rw [hst4blobs]
    rw [find?_filter_self st2.blobs
      (fun kv => kv.1 == bucketName ++ "/" ++ fileName)]

/-- Counterexample to claim C1: with eleven dependents, the search page
(size 10) hides the eleventh. Deletion succeeds, the first dependent is
promoted, the second through tenth are re-pointed, but the eleventh
dependent keeps `original-key = b/o` while `b/o` is gone from the blob
store — a dependent is left pointing at the deleted object. -/
theorem delete_with_eleven_dependents_orphans_one :
    (delete_file (delState 11) "o" "b").2 = Except.ok "File b/o deleted." ∧
    metaGet (linkDocDel 11).source.metadata "original-key" =
      some (some "b/o") ∧
    es_get_document (delete_file (delState 11) "o" "b").1 11 =
      some (linkDocDel 11) ∧
    lookupBlob (delete_file (delState 11) "o" "b").1 "b/o" = none ∧
    es_get_document (delete_file (delState 11) "o" "b").1 1 =
      some { id := 1, source :=
        { file_name := "l1", file_hash := "h", s3_object_name := "b/l1",
          metadata := [("original-key", none),
                       ("linked-file-hash", some "h"),
                       ("original-file-name", some "o")] } } := by
  refine ⟨by decide, by decide, by decide, by decide, by decide⟩

/-- Witness for the amended C1 at a concrete state with two dependents. -/
theorem delete_promotes_all_dependents_witness :
    ∃ st4,
      delete_file (delState 2) "o" "b" =
        (st4, Except.ok ("File " ++ ("b" ++ "/" ++ "o") ++ " deleted.")) ∧
      lookupBlob st4 (linkDocDel 1).source.s3_object_name =
        some (BlobObj.bytes "X") := by
  obtain ⟨st4, h1, h2, h3, h4, h5, h6⟩ :=
    delete_promotes_all_dependents (delState 2) "o" "b" canonDocDel
      (linkDocDel 1) [linkDocDel 2] "X" (by decide) (by decide) (by decide)
      (by decide) (by decide) (by decide) (by decide) (by decide)
  exact ⟨st4, h1, h3⟩
